import Mathlib

/-!
Verification of the reconciliation engine of the decor production-report
generator (`production_functions.py`) against its natural-language
specification.

The engine's row records are shallowly embedded: stage quantities are
integers (Python ints), calendar dates are natural numbers (Python's
`datetime` objects are only compared, sorted and tested for equality, so
any linearly ordered embedding is faithful), and textual fields are
`String`s normalized with `String.trim`, `String.toUpper`,
`String.toLower`, mirroring Python's `strip()`, `upper()`, `lower()`.
Python dictionaries are embedded as association lists with
update-in-place semantics (insertion order preserved, last write wins),
and Python's stable `list.sort` as a stable insertion sort.  Printed
diagnostics that influence a claim are modelled as explicit flags.
-/

/-- The five sequential production stages. -/
inductive Stage where
  | cutting
  | sewing
  | washing
  | finishing
  | packing
deriving DecidableEq, Repr, Fintype

/-- One integer quantity per production stage, in the fixed stage order
used throughout the source (`Cutting`, `Sewing`, `Washing`, `Finishing`,
`Packing`). -/
structure StageQ where
  cutting : Int
  sewing : Int
  washing : Int
  finishing : Int
  packing : Int
deriving DecidableEq, Repr

def StageQ.get (q : StageQ) : Stage → Int
  | .cutting => q.cutting
  | .sewing => q.sewing
  | .washing => q.washing
  | .finishing => q.finishing
  | .packing => q.packing

/-- Pointwise combination of two stage-quantity records; the source
repeats the same arithmetic line once per stage field. -/
def StageQ.map2 (f : Int → Int → Int) (a b : StageQ) : StageQ :=
  ⟨f a.cutting b.cutting, f a.sewing b.sewing, f a.washing b.washing,
   f a.finishing b.finishing, f a.packing b.packing⟩

def StageQ.mapQ (f : Int → Int) (a : StageQ) : StageQ :=
  ⟨f a.cutting, f a.sewing, f a.washing, f a.finishing, f a.packing⟩

/-- The all-zero quantity record. -/
def q0 : StageQ := ⟨0, 0, 0, 0, 0⟩

def addQ (a b : StageQ) : StageQ := StageQ.map2 (· + ·) a b

def subQ (a b : StageQ) : StageQ := StageQ.map2 (· - ·) a b

/-! ### Stable sort

Python's `list.sort` and `sorted` are stable sorts.  A stable insertion
sort embeds them: an element is inserted before the first element it
compares `le` to, so elements that tie keep their original relative
order. -/

def sIns (le : α → α → Bool) (a : α) : List α → List α
  | [] => [a]
  | b :: t => if le a b then a :: b :: t else b :: sIns le a t

def sSort (le : α → α → Bool) : List α → List α
  | [] => []
  | a :: t => sIns le a (sSort le t)

/-! ### Association lists embedding Python dictionaries

`updA` writes a key: an existing key keeps its position and gets the new
value (Python dicts preserve insertion order and overwrite in place), a
new key is appended at the end.  `lookupA` reads a key. -/

def updA [DecidableEq κ] (k : κ) (v : ν) : List (κ × ν) → List (κ × ν)
  | [] => [(k, v)]
  | (k', v') :: t => if k' = k then (k, v) :: t else (k', v') :: updA k v t

def lookupA [DecidableEq κ] (k : κ) : List (κ × ν) → Option ν
  | [] => none
  | (k', v') :: t => if k' = k then some v' else lookupA k t

/-- The last element of a list satisfying a predicate; embeds the
last-write-wins behaviour of keyed dictionary stores. -/
def lastMatch (p : α → Bool) : List α → Option α
  | [] => none
  | a :: t => (lastMatch p t).or (if p a then some a else none)

/-! ### Canonical row records

`ActRow` is a canonical actual-production record as produced by
`get_row_wise_data_from_daily_prod` (quantities are cumulative running
totals) and as emitted by the daywise converter (quantities are day-wise
deltas).  `PlanRow` is a canonical plan record from
`get_row_wise_data_from_plan`.  Provenance fields (`Source Sheet`,
`Source Row`) feed only printed diagnostics and are omitted. -/

structure ActRow where
  style : String
  po : String
  colour : String
  date : Nat
  qty : StageQ
deriving DecidableEq, Repr

structure PlanRow where
  style : String
  po : String
  colour : String
  date : Nat
  planned : StageQ
deriving DecidableEq, Repr

/-- One matched row from `match_plan_with_actual`: one (PO, colour) key
and one date, with planned and actual quantities for all five stages. -/
structure MRow where
  style : String
  po : String
  colour : String
  date : Nat
  planned : StageQ
  actual : StageQ
deriving DecidableEq, Repr

/-- One output row of `add_cumulative_columns_to_matched_dict`: the
matched row plus day-wise variance and cumulative planned, actual and
variance columns.  The day-of-week column is derived from the date alone
and carries no reconciliation content. -/
structure ARow where
  style : String
  po : String
  colour : String
  date : Nat
  planned : StageQ
  actual : StageQ
  dayDiff : StageQ
  cumP : StageQ
  cumA : StageQ
  cumDiff : StageQ
deriving DecidableEq, Repr

/-! ### Daywise converter
`convert_cumulative_to_daywise_quantities_for_daily_prod`. -/

/-- The per-key tracking key used by the converter: style upper-cased,
PO trimmed, colour lower-cased (`row['Style No'].strip().upper()` etc.). -/
def actKey (r : ActRow) : String × String × String :=
  (r.style.trim.toUpper, r.po.trim, r.colour.trim.toLower)

/-- Whether any stage delta is negative; this is the condition that both
prints the converter's negative-quantity warning and triggers clamping. -/
def anyNegQ (d : StageQ) : Bool :=
  decide (d.cutting < 0) || decide (d.sewing < 0) || decide (d.washing < 0) ||
    decide (d.finishing < 0) || decide (d.packing < 0)

/-- Clamping applied by the converter: only when some stage delta is
negative are all five deltas passed through `max(0, ·)`. -/
def clampIf (d : StageQ) : StageQ :=
  if anyNegQ d then StageQ.mapQ (fun x => max 0 x) d else d

/-- The converter's main loop over the date-sorted rows.  The state is
the per-key snapshot dictionary `previous_quantities_by_combo`, mapping
a tracking key to the most recent cumulative quantities seen for it.
Each emitted pair carries the day-wise row and whether the negative
day-wise warning fired (i.e. whether clamping occurred) at that row.
The snapshot is always updated to the current cumulative values. -/
def dwGo (snap : List ((String × String × String) × StageQ)) :
    List ActRow → List (ActRow × Bool)
  | [] => []
  | r :: t =>
    match lookupA (actKey r) snap with
    | some prev =>
      let d := subQ r.qty prev
      ({ r with qty := clampIf d }, anyNegQ d) :: dwGo (updA (actKey r) r.qty snap) t
    | none =>
      (r, false) :: dwGo (updA (actKey r) r.qty snap) t

/-- Date-ascending stable sort of the input (`dated_rows.sort`). -/
def dateSortAct (rows : List ActRow) : List ActRow :=
  sSort (fun a b => decide (a.date ≤ b.date)) rows

/-- The daywise converter together with its per-row clamp flags. -/
def daywiseAux (rows : List ActRow) : List (ActRow × Bool) :=
  dwGo [] (dateSortAct rows)

/-- `convert_cumulative_to_daywise_quantities_for_daily_prod`: sort all
rows by date ascending, then replace each row's cumulative quantities by
deltas against the key's previous snapshot (first occurrence passes
through unchanged), clamping negative deltas to zero. -/
def convert_cumulative_to_daywise_quantities_for_daily_prod
    (rows : List ActRow) : List ActRow :=
  (daywiseAux rows).map Prod.fst

/-- Selects the rows of tracking key `k` dated at or before `D`. -/
def rowFilt (k : String × String × String) (D : Nat) (r : ActRow) : Bool :=
  actKey r == k && decide (r.date ≤ D)

def dwFilt (k : String × String × String) (D : Nat) (pb : ActRow × Bool) : Bool :=
  rowFilt k D pb.1

/-- The sum, up to and including date `D`, of the day-wise deltas the
converter emits for one tracking key at one stage: the reconstruction of
the key's cumulative total at `D` from the converter's output. -/
def reconSum (rows : List ActRow) (k : String × String × String) (D : Nat)
    (s : Stage) : Int :=
  (((convert_cumulative_to_daywise_quantities_for_daily_prod rows).filter
      (rowFilt k D)).map (fun r => r.qty.get s)).sum

/-- Whether the converter clamped (warned) at some row of key `k` dated
at or before `D`. -/
def clampedBy (rows : List ActRow) (k : String × String × String) (D : Nat) :
    Prop :=
  ∃ pb ∈ daywiseAux rows, actKey pb.1 = k ∧ pb.1.date ≤ D ∧ pb.2 = true

/-! ### Plan/actual matcher
`match_plan_with_actual`. -/

/-- The (PO, colour) combination key used by the matcher:
`row['PO'].strip()`, `row['Colour'].strip().lower()`. -/
def planComboKey (r : PlanRow) : String × String := (r.po.trim, r.colour.trim.toLower)

def actComboKey (r : ActRow) : String × String := (r.po.trim, r.colour.trim.toLower)

/-- Case-insensitive style filter applied to both inputs
(`row['Style No'].strip().upper() == style_number.strip().upper()`). -/
def planStyleFilter (plan : List PlanRow) (style : String) : List PlanRow :=
  plan.filter (fun r => r.style.trim.toUpper == style.trim.toUpper)

def actStyleFilter (actual : List ActRow) (style : String) : List ActRow :=
  actual.filter (fun r => r.style.trim.toUpper == style.trim.toUpper)

/-- One write into a nested combo-then-date dictionary:
`plan_by_combo[combo_key][date] = row` (creating the inner dictionary on
first sight of the combo, overwriting on repeated (combo, date)). -/
def comboStep [DecidableEq κ] (key : ρ → κ) (date : ρ → Nat)
    (m : List (κ × List (Nat × ρ))) (r : ρ) : List (κ × List (Nat × ρ)) :=
  updA (key r) (updA (date r) r ((lookupA (key r) m).getD [])) m

/-- Build the nested dictionary from a row list, in input order. -/
def byCombo [DecidableEq κ] (key : ρ → κ) (date : ρ → Nat) (rows : List ρ) :
    List (κ × List (Nat × ρ)) :=
  rows.foldl (comboStep key date) []

/-- `plan_by_combo`: a dictionary from combo key to a dictionary from
date to the (last) plan row with that key and date. -/
def planByCombo (rows : List PlanRow) :
    List ((String × String) × List (Nat × PlanRow)) :=
  byCombo planComboKey (fun r => r.date) rows

/-- `actual_by_combo`, built the same way from the day-wise rows. -/
def actByCombo (rows : List ActRow) :
    List ((String × String) × List (Nat × ActRow)) :=
  byCombo actComboKey (fun r => r.date) rows

/-- Lexicographic order on combo keys (`sorted(plan_by_combo.keys())`). -/
def comboLe (a b : String × String) : Bool :=
  decide (a.1 < b.1) || (a.1 == b.1 && decide (a.2 ≤ b.2))

def natLe (a b : Nat) : Bool := decide (a ≤ b)

/-- The sorted union of the plan dates and actual dates of one combo
key (`plan_dates.union(actual_dates)`, then sorted). -/
def comboDates (plan : List PlanRow) (actual : List ActRow) (style : String)
    (k : String × String) : List Nat :=
  sSort natLe
    ((((lookupA k (planByCombo (planStyleFilter plan style))).getD []).map Prod.fst ++
      ((lookupA k (actByCombo (actStyleFilter actual style))).getD []).map Prod.fst).dedup)

/-- One matched row for a combo key and date: planned quantities from
the plan entry at that date (zero-filled when absent), actual
quantities from the actual entry at that date (zero-filled when
absent). -/
def matchedRowFor (plan : List PlanRow) (actual : List ActRow) (style : String)
    (k : String × String) (d : Nat) : MRow :=
  { style := style, po := k.1, colour := k.2, date := d,
    planned :=
      match lookupA d ((lookupA k (planByCombo (planStyleFilter plan style))).getD []) with
      | some p => p.planned
      | none => q0,
    actual :=
      match lookupA d ((lookupA k (actByCombo (actStyleFilter actual style))).getD []) with
      | some a => a.qty
      | none => q0 }

/-- `match_plan_with_actual`: for every (PO, colour) combination of the
plan (sorted for determinism), and for every date in the sorted union of
that combination's plan dates and actual dates, emit one matched row
combining planned quantities (zero-filled when the date has no plan
entry) and actual quantities (zero-filled when the date has no actual
entry).  Combinations present only in the actuals are reported and
excluded. -/
def match_plan_with_actual (plan : List PlanRow) (actual : List ActRow)
    (style : String) : List MRow :=
  (sSort comboLe ((planByCombo (planStyleFilter plan style)).map Prod.fst)).flatMap
    (fun k => (comboDates plan actual style k).map (matchedRowFor plan actual style k))

/-! ### Row pruner
`delete_empty_rows`. -/

/-- The sum of the ten quantity fields of a matched row; the source
deletes a row exactly when this total is zero. -/
def rowTotal (r : MRow) : Int :=
  r.planned.cutting + r.planned.sewing + r.planned.washing +
    r.planned.finishing + r.planned.packing +
    r.actual.cutting + r.actual.sewing + r.actual.finishing +
    r.actual.washing + r.actual.packing

def delete_empty_rows (l : List MRow) : List MRow :=
  l.filter (fun r => !(rowTotal r == 0))

/-! ### Cumulative aggregator
`add_cumulative_columns_to_matched_dict`. -/

/-- The grouping key of the aggregator: the raw (un-normalized)
`Style No`, `PO` and `Colour` fields. -/
def gKey (r : MRow) : String × String × String := (r.style, r.po, r.colour)

/-- Distinct keys in first-occurrence order, as iterating a Python dict
built by appending to per-key lists yields them. -/
def dedupFirstAux [DecidableEq κ] (seen : List κ) : List κ → List κ
  | [] => []
  | k :: t => if k ∈ seen then dedupFirstAux seen t else k :: dedupFirstAux (k :: seen) t

def groupKeys (rows : List MRow) : List (String × String × String) :=
  dedupFirstAux [] (rows.map gKey)

/-- `grouped_rows`: one group per distinct key, each group holding its
rows in original input order. -/
def groupsOf (rows : List MRow) : List (List MRow) :=
  (groupKeys rows).map (fun k => rows.filter (fun r => gKey r == k))

/-- The per-date planned totals of a group: the aggregator's look-ahead
scan summing `Planned ...` over all rows of the group sharing a date. -/
def dateTotalP (g : List MRow) (d : Nat) : StageQ :=
  (g.filter (fun r => r.date == d)).foldl (fun acc r => addQ acc r.planned) q0

def dateTotalA (g : List MRow) (d : Nat) : StageQ :=
  (g.filter (fun r => r.date == d)).foldl (fun acc r => addQ acc r.actual) q0

/-- Assemble one aggregated output row from a matched row and the
cumulative planned/actual snapshots valid for its date. -/
def mkARow (r : MRow) (cdcP cdcA : StageQ) : ARow :=
  { style := r.style, po := r.po, colour := r.colour, date := r.date,
    planned := r.planned, actual := r.actual,
    dayDiff := subQ r.actual r.planned,
    cumP := cdcP, cumA := cdcA,
    cumDiff := subQ cdcA cdcP }

/-- The aggregator's walk over one date-sorted group `g`.  State: the
current date with its cumulative snapshots (`current_date` and the
`current_date_cumulative_*` variables), and the accumulators holding the
totals folded in for all earlier dates (`cumulative_*`).  On a date
change the previous date's totals are folded into the accumulators and
the new date's totals (scanned from the whole group) are added on top. -/
def aggGo (g : List MRow) :
    Option (Nat × StageQ × StageQ) → StageQ → StageQ → List MRow → List ARow
  | _, _, _, [] => []
  | some (d, cdcP, cdcA), cP, cA, r :: t =>
    if r.date = d then
      mkARow r cdcP cdcA :: aggGo g (some (d, cdcP, cdcA)) cP cA t
    else
      mkARow r (addQ (addQ cP (dateTotalP g d)) (dateTotalP g r.date))
        (addQ (addQ cA (dateTotalA g d)) (dateTotalA g r.date)) ::
        aggGo g
          (some (r.date, addQ (addQ cP (dateTotalP g d)) (dateTotalP g r.date),
            addQ (addQ cA (dateTotalA g d)) (dateTotalA g r.date)))
          (addQ cP (dateTotalP g d)) (addQ cA (dateTotalA g d)) t
  | none, cP, cA, r :: t =>
    mkARow r (addQ cP (dateTotalP g r.date)) (addQ cA (dateTotalA g r.date)) ::
      aggGo g
        (some (r.date, addQ cP (dateTotalP g r.date), addQ cA (dateTotalA g r.date)))
        cP cA t

/-- Process one group: sort it by date ascending, then walk it. -/
def aggGroup (rows : List MRow) : List ARow :=
  aggGo (sSort (fun a b => decide (a.date ≤ b.date)) rows) none q0 q0
    (sSort (fun a b => decide (a.date ≤ b.date)) rows)

/-- The final sort of the aggregator's output by (style, PO, colour,
date). -/
def outLe (a b : ARow) : Bool :=
  decide (a.style < b.style) ||
    (a.style == b.style && (decide (a.po < b.po) ||
      (a.po == b.po && (decide (a.colour < b.colour) ||
        (a.colour == b.colour && decide (a.date ≤ b.date))))))

/-- `add_cumulative_columns_to_matched_dict`: group the matched rows by
raw (style, PO, colour), walk each group in ascending date order
computing day-of-week, day-wise variance and cumulative columns, then
sort everything by (style, PO, colour, date). -/
def add_cumulative_columns_to_matched_dict (rows : List MRow) : List ARow :=
  sSort outLe ((groupsOf rows).flatMap aggGroup)

/-! ### Plan ingestion: date acceptance and year repair

The date-resolution slice of `get_row_wise_data_from_plan`.  A sheet's
rows are embedded by their date-parse outcome: `none` when the `Date`
cell is blank or unparseable (the row is dropped), `some p` when it
parses to calendar date `p`.  All other row processing (strings,
quantities) is independent of date acceptance. -/

structure PDate where
  y : Nat
  m : Nat
  d : Nat
deriving DecidableEq, Repr

/-- The plausible-year window of the suspicious-year check
(`date_parsed.year < 2020 or date_parsed.year > 2050`). -/
def yearPlausible (y : Nat) : Bool := decide (2020 ≤ y) && decide (y ≤ 2050)

/-- The source's forward peek for year repair: the next row's parsed
year, used only if it parses and lies in 2000..2100
(`if 2000 <= next_date_parsed.year <= 2100`). -/
def peekYearBelow (t : List (Option PDate)) : Option Nat :=
  match t.head? with
  | some (some p2) => if 2000 ≤ p2.y ∧ p2.y ≤ 2100 then some p2.y else none
  | _ => none

/-- The date-acceptance loop of `get_row_wise_data_from_plan`.  The
state is the year of the most recently accepted (possibly repaired) row
(`parsed_dates_with_indices[-1]`).  A plausible year is accepted as-is;
an implausible year is repaired from the last accepted row's year and
the forward peek, or the row is dropped. -/
def planDatesGo : Option Nat → List (Option PDate) → List PDate
  | _, [] => []
  | lastY, none :: t => planDatesGo lastY t
  | lastY, some p :: t =>
    if yearPlausible p.y then p :: planDatesGo (some p.y) t
    else
      match lastY, peekYearBelow t with
      | some ya, some yb =>
        if ya = yb then { p with y := ya } :: planDatesGo (some ya) t
        else planDatesGo lastY t
      | some ya, none => { p with y := ya } :: planDatesGo (some ya) t
      | none, some yb => { p with y := yb } :: planDatesGo (some yb) t
      | none, none => planDatesGo lastY t

/-- The accepted (and possibly year-repaired) dates of a plan sheet, in
row order. -/
def get_row_wise_data_from_plan_dates (l : List (Option PDate)) : List PDate :=
  planDatesGo none l

/-- Modelled from the claim's wording: the next row's year counts as
available whenever it is parseable, with no plausibility window. -/
def peekYearBelowClaim (t : List (Option PDate)) : Option Nat :=
  match t.head? with
  | some (some p2) => some p2.y
  | _ => none

/-- The claim's repair policy on the list of available neighbor years:
both available and agreeing adopt that year, exactly one available
adopts it, none available or disagreeing drops the row. -/
def repairDecision (neighbors : List Nat) (p : PDate) : Option PDate :=
  match neighbors with
  | [] => none
  | [y1] => some { p with y := y1 }
  | y1 :: y2 :: _ => if y1 = y2 then some { p with y := y1 } else none

/-- The date-acceptance loop as the claim states it (forward peek
available whenever parseable). -/
def planDatesClaimGo : Option Nat → List (Option PDate) → List PDate
  | _, [] => []
  | lastY, none :: t => planDatesClaimGo lastY t
  | lastY, some p :: t =>
    if yearPlausible p.y then p :: planDatesClaimGo (some p.y) t
    else
      match repairDecision (lastY.toList ++ (peekYearBelowClaim t).toList) p with
      | some p2 => p2 :: planDatesClaimGo (some p2.y) t
      | none => planDatesClaimGo lastY t

def planDatesClaim (l : List (Option PDate)) : List PDate :=
  planDatesClaimGo none l

/-- The date-acceptance loop as the amended claim states it: identical
to the claim's policy except that the forward peek is available only
when the next row's year lies in 2000..2100. -/
def planDatesAmendedGo : Option Nat → List (Option PDate) → List PDate
  | _, [] => []
  | lastY, none :: t => planDatesAmendedGo lastY t
  | lastY, some p :: t =>
    if yearPlausible p.y then p :: planDatesAmendedGo (some p.y) t
    else
      match repairDecision (lastY.toList ++ (peekYearBelow t).toList) p with
      | some p2 => p2 :: planDatesAmendedGo (some p2.y) t
      | none => planDatesAmendedGo lastY t

def planDatesAmended (l : List (Option PDate)) : List PDate :=
  planDatesAmendedGo none l

/-! ### Quantity-cell normalization

The quantity-cell handling of plan ingestion (the loop body over columns
E, G, I, K, M of `get_row_wise_data_from_plan`) and of actual ingestion
(the `process_quantity` helper of `get_row_wise_data_from_daily_prod`).
A cell either is blank, parses as a number (Python `float`, embedded as
an exact rational), or fails to parse.  Each processor returns the
stored integer together with whether a diagnostic was emitted for the
cell. -/

inductive Cell where
  | blank
  | num (q : Rat)
  | text
deriving DecidableEq, Repr

/-- Python's `round`: round half to even. -/
def pyRound (q : Rat) : Int :=
  if q - ⌊q⌋ < 1 / 2 then ⌊q⌋
  else if (1 : Rat) / 2 < q - ⌊q⌋ then ⌊q⌋ + 1
  else if ⌊q⌋ % 2 = 0 then ⌊q⌋ else ⌊q⌋ + 1

/-- Plan ingestion quantity cell: blank stores 0 with no diagnostic; a
whole number is stored as-is; a fractional number is rounded with a
diagnostic; an unparseable value stores 0 with a diagnostic. -/
def planQuantityCell : Cell → Int × Bool
  | .blank => (0, false)
  | .num q => if q.den = 1 then (q.num, false) else (pyRound q, true)
  | .text => (0, true)

/-- Actual ingestion `process_quantity`: blank stores 0 with no
diagnostic; a negative number stores 0 with a diagnostic; a whole number
is stored as-is; a fractional number is rounded with a diagnostic; an
unparseable value stores 0 with a diagnostic. -/
def process_quantity : Cell → Int × Bool
  | .blank => (0, false)
  | .num q =>
    if q < 0 then (0, true)
    else if q.den = 1 then (q.num, false)
    else (pyRound q, true)
  | .text => (0, true)

/-! ## Theorems -/

/-! ### Stage-quantity record lemmas -/

theorem StageQ.get_map2 (f : Int → Int → Int) (a b : StageQ) (s : Stage) :
    (StageQ.map2 f a b).get s = f (a.get s) (b.get s) := by
  cases s <;> rfl

theorem StageQ.get_mapQ (f : Int → Int) (a : StageQ) (s : Stage) :
    (StageQ.mapQ f a).get s = f (a.get s) := by
  cases s <;> rfl

theorem q0_get (s : Stage) : q0.get s = 0 := by cases s <;> rfl

theorem addQ_get (a b : StageQ) (s : Stage) :
    (addQ a b).get s = a.get s + b.get s := StageQ.get_map2 _ a b s

theorem subQ_get (a b : StageQ) (s : Stage) :
    (subQ a b).get s = a.get s - b.get s := StageQ.get_map2 _ a b s

/-- Two stage-quantity records agreeing at every stage are equal. -/
theorem StageQ.ext_get {a b : StageQ} (h : ∀ s, a.get s = b.get s) : a = b := by
  cases a
  cases b
  have hc := h .cutting
  have hs := h .sewing
  have hw := h .washing
  have hf := h .finishing
  have hp := h .packing
  simp [StageQ.get] at hc hs hw hf hp
  simp [hc, hs, hw, hf, hp]

/-! ### Stable sort lemmas -/

theorem sIns_perm (le : α → α → Bool) (a : α) (l : List α) :
    (sIns le a l).Perm (a :: l) := by
  induction l with
  | nil => simp [sIns]
  | cons b t ih =>
    by_cases h : le a b
    · simp [sIns, h]
    · simp only [sIns, h, if_neg, Bool.false_eq_true, if_false]
      exact ((ih.cons b).trans (List.Perm.swap a b t))

theorem sSort_perm (le : α → α → Bool) (l : List α) :
    (sSort le l).Perm l := by
  induction l with
  | nil => simp [sSort]
  | cons a t ih =>
    exact (sIns_perm le a (sSort le t)).trans (ih.cons a)

theorem mem_sIns {le : α → α → Bool} {a x : α} {l : List α} :
    x ∈ sIns le a l ↔ x = a ∨ x ∈ l := by
  rw [(sIns_perm le a l).mem_iff]
  simp

theorem mem_sSort {le : α → α → Bool} {x : α} {l : List α} :
    x ∈ sSort le l ↔ x ∈ l := (sSort_perm le l).mem_iff

theorem sIns_sorted {le : α → α → Bool}
    (htot : ∀ a b, le a b ∨ le b a) (htr : ∀ a b c, le a b → le b c → le a c)
    (a : α) (l : List α) (h : l.Pairwise (fun x y => le x y)) :
    (sIns le a l).Pairwise (fun x y => le x y) := by
  induction l with
  | nil => simp [sIns]
  | cons b t ih =>
    obtain ⟨hb, ht⟩ := List.pairwise_cons.mp h
    by_cases hab : le a b
    · simp only [sIns, hab, if_true]
      refine List.pairwise_cons.mpr ⟨?_, List.pairwise_cons.mpr ⟨hb, ht⟩⟩
      intro y hy
      rcases List.mem_cons.mp hy with rfl | hy
      · exact hab
      · exact htr a b y hab (hb y hy)
    · simp only [sIns, hab, Bool.false_eq_true, if_false]
      refine List.pairwise_cons.mpr ⟨?_, ih ht⟩
      intro y hy
      rcases mem_sIns.mp hy with hya | hy
      · rw [hya]
        exact (htot a b).resolve_left hab
      · exact hb y hy

theorem sSort_sorted {le : α → α → Bool}
    (htot : ∀ a b, le a b ∨ le b a) (htr : ∀ a b c, le a b → le b c → le a c)
    (l : List α) : (sSort le l).Pairwise (fun x y => le x y) := by
  induction l with
  | nil => simp [sSort]
  | cons a t ih => exact sIns_sorted htot htr a _ ih

/-- Inserting an element that is `le` everything in an already sorted
list leaves a sorted list unchanged except for the new head. -/
theorem sSort_of_sorted {le : α → α → Bool} {l : List α}
    (h : l.Pairwise (fun x y => le x y)) : sSort le l = l := by
  induction l with
  | nil => rfl
  | cons a t ih =>
    obtain ⟨ha, ht⟩ := List.pairwise_cons.mp h
    rw [sSort, ih ht]
    cases t with
    | nil => rfl
    | cons b t2 => simp [sIns, ha b (by simp)]

/-! ### Association list lemmas -/

theorem lookupA_updA [DecidableEq κ] (k k' : κ) (v : ν) (m : List (κ × ν)) :
    lookupA k (updA k' v m) = if k' = k then some v else lookupA k m := by
  induction m with
  | nil => by_cases h : k' = k <;> simp [updA, lookupA, h]
  | cons p t ih =>
    obtain ⟨k0, v0⟩ := p
    by_cases h0 : k0 = k'
    · by_cases h : k' = k
      · simp [updA, lookupA, h0, h]
      · simp [updA, lookupA, h0, h]
    · by_cases h1 : k0 = k
      · have hk : ¬ (k' = k) := fun he => h0 (h1.trans he.symm)
        have hk2 : ¬ (k = k') := fun he => hk he.symm
        simp [updA, lookupA, h0, h1, hk, hk2]
      · simp [updA, lookupA, h0, h1, ih]

theorem updA_ne_nil [DecidableEq κ] (k : κ) (v : ν) (m : List (κ × ν)) :
    updA k v m ≠ [] := by
  cases m with
  | nil => simp [updA]
  | cons p t =>
    obtain ⟨k', v'⟩ := p
    by_cases h : k' = k <;> simp [updA, h]

theorem lookupA_isSome_iff_mem_keys [DecidableEq κ] (k : κ) (m : List (κ × ν)) :
    (lookupA k m).isSome ↔ k ∈ m.map Prod.fst := by
  induction m with
  | nil => simp [lookupA]
  | cons p t ih =>
    obtain ⟨k', v'⟩ := p
    by_cases h : k' = k
    · subst h
      simp [lookupA]
    · simp [lookupA, h, ih, Ne.symm h]

/-! ### Daywise converter lemmas -/

theorem clampIf_get_le (d : StageQ) (s : Stage) :
    d.get s ≤ (clampIf d).get s := by
  unfold clampIf
  by_cases h : anyNegQ d
  · simp [h, StageQ.get_mapQ]
  · simp [h]

theorem clampIf_of_nonneg {d : StageQ} (h : ∀ s, 0 ≤ d.get s) :
    clampIf d = d := by
  unfold clampIf
  have hc := h .cutting
  have hs := h .sewing
  have hw := h .washing
  have hf := h .finishing
  have hp := h .packing
  simp [StageQ.get] at hc hs hw hf hp
  simp [anyNegQ, not_lt.mpr hc, not_lt.mpr hs, not_lt.mpr hw, not_lt.mpr hf,
    not_lt.mpr hp]

theorem anyNegQ_false_nonneg {d : StageQ} (s : Stage) :
    anyNegQ d = false → 0 ≤ d.get s := by
  intro h
  simp only [anyNegQ, Bool.or_eq_false_iff, decide_eq_false_iff_not, not_lt] at h
  obtain ⟨⟨⟨⟨hc, hs⟩, hw⟩, hf⟩, hp⟩ := h
  cases s <;> assumption

theorem clampIf_get_nonneg_of_clamp {d : StageQ} (s : Stage) :
    anyNegQ d = true → 0 ≤ (clampIf d).get s := by
  intro h
  simp [clampIf, h, StageQ.get_mapQ]

theorem clampIf_get_nonneg (d : StageQ) (s : Stage) :
    0 ≤ (clampIf d).get s := by
  cases h : anyNegQ d
  · rw [clampIf, h]
    simp only [Bool.false_eq_true, if_false]
    exact anyNegQ_false_nonneg s h
  · exact clampIf_get_nonneg_of_clamp s h

theorem dwGo_nil (snap : List ((String × String × String) × StageQ)) :
    dwGo snap [] = [] := rfl

theorem dwGo_cons_some {snap : List ((String × String × String) × StageQ)}
    {r : ActRow} {t : List ActRow} {prev : StageQ}
    (hl : lookupA (actKey r) snap = some prev) :
    dwGo snap (r :: t) =
      ({ r with qty := clampIf (subQ r.qty prev) }, anyNegQ (subQ r.qty prev)) ::
        dwGo (updA (actKey r) r.qty snap) t := by
  simp only [dwGo, hl]

theorem dwGo_cons_none {snap : List ((String × String × String) × StageQ)}
    {r : ActRow} {t : List ActRow}
    (hl : lookupA (actKey r) snap = none) :
    dwGo snap (r :: t) = (r, false) :: dwGo (updA (actKey r) r.qty snap) t := by
  simp only [dwGo, hl]

theorem actKey_qty (r : ActRow) (q : StageQ) :
    actKey { r with qty := q } = actKey r := rfl

/-- The converter changes only quantities: keys and dates of its output
are those of its (sorted) input, in order. -/
theorem dwGo_keydates (l : List ActRow) :
    ∀ snap, (dwGo snap l).map (fun pb => (actKey pb.1, pb.1.date)) =
      l.map (fun r => (actKey r, r.date)) := by
  induction l with
  | nil => intro snap; simp [dwGo]
  | cons r t ih =>
    intro snap
    cases hl : lookupA (actKey r) snap with
    | some prev => simp [dwGo_cons_some hl, ih, actKey_qty]
    | none => simp [dwGo_cons_none hl, ih]

theorem dwGo_nonneg (l : List ActRow) :
    ∀ (snap : List ((String × String × String) × StageQ)),
    (∀ r ∈ l, ∀ s, 0 ≤ r.qty.get s) →
    ∀ pb ∈ dwGo snap l, ∀ s, 0 ≤ pb.1.qty.get s := by
  induction l with
  | nil =>
    intro snap h pb hpb
    simp [dwGo] at hpb
  | cons r t ih =>
    intro snap h pb hpb s
    cases hl : lookupA (actKey r) snap with
    | some prev =>
      rw [dwGo_cons_some hl] at hpb
      rcases List.mem_cons.mp hpb with rfl | hpb
      · exact clampIf_get_nonneg _ s
      · exact ih _ (fun x hx => h x (List.mem_cons_of_mem r hx)) pb hpb s
    | none =>
      rw [dwGo_cons_none hl] at hpb
      rcases List.mem_cons.mp hpb with rfl | hpb
      · exact h r (List.mem_cons_self r t) s
      · exact ih _ (fun x hx => h x (List.mem_cons_of_mem r hx)) pb hpb s

/-- C10: the converter emits only non-negative quantities when its
input quantities are non-negative.  First occurrences of a key pass
through unchanged (hence stay non-negative); later occurrences are
clamped at zero. -/
theorem converter_output_nonneg (rows : List ActRow)
    (h : ∀ r ∈ rows, ∀ s, 0 ≤ r.qty.get s) :
    ∀ r ∈ convert_cumulative_to_daywise_quantities_for_daily_prod rows,
      ∀ s, 0 ≤ r.qty.get s := by
  intro r hr s
  rw [convert_cumulative_to_daywise_quantities_for_daily_prod, List.mem_map] at hr
  obtain ⟨pb, hpb, rfl⟩ := hr
  refine dwGo_nonneg (dateSortAct rows) [] ?_ pb hpb s
  intro x hx
  exact h x ((sSort_perm _ rows).mem_iff.mp hx)

/-- C7: after each row of a key is processed, the stored snapshot holds
that row's original cumulative values, never the clamped deltas.  For
three consecutive same-key rows the full converter output is determined
by consecutive differences of the original cumulatives; in particular
the third row's delta is computed against the second row's original
cumulative even when the second row's deltas were clamped, and it is the
exact difference whenever it is non-negative stage-wise. -/
theorem converter_snapshot_keeps_original_cumulative (r1 r2 r3 : ActRow)
    (hk12 : actKey r1 = actKey r2) (hk23 : actKey r2 = actKey r3)
    (h12 : r1.date < r2.date) (h23 : r2.date < r3.date) :
    convert_cumulative_to_daywise_quantities_for_daily_prod [r1, r2, r3] =
      [r1, { r2 with qty := clampIf (subQ r2.qty r1.qty) },
        { r3 with qty := clampIf (subQ r3.qty r2.qty) }] ∧
    ((∀ s, r2.qty.get s ≤ r3.qty.get s) →
      clampIf (subQ r3.qty r2.qty) = subQ r3.qty r2.qty) := by
  constructor
  · have hsort : dateSortAct [r1, r2, r3] = [r1, r2, r3] := by
      apply sSort_of_sorted
      simp only [List.pairwise_cons, List.mem_cons, List.mem_singleton,
        List.not_mem_nil, decide_eq_true_eq]
      refine ⟨?_, ?_, ?_⟩
      · intro y hy
        rcases hy with rfl | hy
        · exact Nat.le_of_lt h12
        · rcases hy with rfl | hy
          · exact Nat.le_of_lt (h12.trans h23)
          · simp at hy
      · intro y hy
        rcases hy with rfl | hy
        · exact Nat.le_of_lt h23
        · simp at hy
      · simp
    have hl1 : lookupA (actKey r1) ([] : List ((String × String × String) × StageQ)) = none := rfl
    have hu1 : updA (actKey r1) r1.qty ([] : List ((String × String × String) × StageQ)) =
        [(actKey r1, r1.qty)] := rfl
    have hl2 : lookupA (actKey r2) [(actKey r1, r1.qty)] = some r1.qty := by
      simp [lookupA, hk12]
    have hu2 : updA (actKey r2) r2.qty [(actKey r1, r1.qty)] = [(actKey r2, r2.qty)] := by
      simp [updA, hk12]
    have hl3 : lookupA (actKey r3) [(actKey r2, r2.qty)] = some r2.qty := by
      simp [lookupA, hk23]
    rw [convert_cumulative_to_daywise_quantities_for_daily_prod, daywiseAux, hsort,
      dwGo_cons_none hl1, hu1, dwGo_cons_some hl2, hu2, dwGo_cons_some hl3]
    simp [dwGo]
  · intro hle
    apply clampIf_of_nonneg
    intro s
    rw [subQ_get]
    exact Int.sub_nonneg.mpr (hle s)

theorem sum_filter_false {β : Type} {p : β → Bool} {l : List β} {g : β → Int}
    (h : ∀ x ∈ l, p x = false) : ((l.filter p).map g).sum = 0 := by
  have hnil : l.filter p = [] := by
    rw [List.filter_eq_nil_iff]
    intro x hx
    simp [h x hx]
  simp [hnil]

/-- The converter's reconstruction invariant, relative to an arbitrary
snapshot state: the filtered delta sum for key `k` up to date `D` is at
least the cumulative at `D` minus the snapshot's stored value for `k`
(zero when absent), with equality when no clamp fired for `k` at or
before `D`. -/
theorem dwFilt_mk_qty (k : String × String × String) (D : Nat) (r : ActRow)
    (q : StageQ) (b : Bool) :
    dwFilt k D ({ r with qty := q }, b) = rowFilt k D r := rfl

theorem dwFilt_pair (k : String × String × String) (D : Nat) (r : ActRow)
    (b : Bool) : dwFilt k D (r, b) = rowFilt k D r := rfl

theorem rowFilt_true {k : String × String × String} {D : Nat} {r : ActRow}
    (hk : actKey r = k) (hd : r.date ≤ D) : rowFilt k D r = true := by
  simp [rowFilt, hk, hd]

theorem rowFilt_false_key {k : String × String × String} {D : Nat} {r : ActRow}
    (hk : ¬ (actKey r = k)) : rowFilt k D r = false := by
  simp [rowFilt, hk]

theorem rowFilt_false_date {k : String × String × String} {D : Nat} {r : ActRow}
    (hd : ¬ (r.date ≤ D)) : rowFilt k D r = false := by
  simp [rowFilt, hd]

/-- The converter's reconstruction invariant, relative to an arbitrary
snapshot state: the filtered delta sum for key `k` up to date `D` is at
least the cumulative at `D` minus the snapshot's stored value for `k`
(zero when absent), with equality when no clamp fired for `k` at or
before `D`. -/
theorem dwGo_reconstruct (k : String × String × String) (D : Nat) (s : Stage) :
    ∀ (l : List ActRow) (snap : List ((String × String × String) × StageQ))
      (r0 : ActRow),
    l.Pairwise (fun a b => a.date ≤ b.date) →
    (l.map (fun r => (actKey r, r.date))).Nodup →
    r0 ∈ l → actKey r0 = k → r0.date = D →
    (r0.qty.get s - ((lookupA k snap).getD q0).get s ≤
      (((dwGo snap l).filter (dwFilt k D)).map (fun pb => pb.1.qty.get s)).sum) ∧
    ((∀ pb ∈ dwGo snap l, actKey pb.1 = k → pb.1.date ≤ D → pb.2 = false) →
      (((dwGo snap l).filter (dwFilt k D)).map (fun pb => pb.1.qty.get s)).sum =
        r0.qty.get s - ((lookupA k snap).getD q0).get s) := by
  intro l
  induction l with
  | nil =>
    intro snap r0 _ _ h0
    simp at h0
  | cons r t ih =>
    intro snap r0 hpw hnd h0 hk0 hD
    obtain ⟨hhead, hpwt⟩ := List.pairwise_cons.mp hpw
    obtain ⟨hndh, hndt⟩ := List.nodup_cons.mp hnd
    rcases List.mem_cons.mp h0 with heq | h0t
    · -- the head row is the row at date D
      subst heq
      have hrt : ∀ rt ∈ t, actKey rt = k → D < rt.date := by
        intro rt hrtm hkey
        have hle : r0.date ≤ rt.date := hhead rt hrtm
        have hne : rt.date ≠ D := by
          intro hcontra
          apply hndh
          rw [List.mem_map]
          refine ⟨rt, hrtm, ?_⟩
          simp only [hkey, hcontra, hk0, hD]
        omega
      have hrest : ∀ pb ∈ dwGo (updA (actKey r0) r0.qty snap) t,
          dwFilt k D pb = false := by
        intro pb hpb
        have hmem : (actKey pb.1, pb.1.date) ∈
            t.map (fun x => (actKey x, x.date)) := by
          rw [← dwGo_keydates t (updA (actKey r0) r0.qty snap)]
          exact List.mem_map_of_mem _ hpb
        rw [List.mem_map] at hmem
        obtain ⟨rt, hrtmem, hrteq⟩ := hmem
        by_cases hkk : actKey pb.1 = k
        · have hlt : D < pb.1.date := by
            have h1 : actKey rt = actKey pb.1 := congrArg Prod.fst hrteq
            have h2 : rt.date = pb.1.date := congrArg Prod.snd hrteq
            rw [← h2]
            exact hrt rt hrtmem (h1.trans hkk)
          exact rowFilt_false_date (not_le.mpr hlt)
        · exact rowFilt_false_key hkk
      cases hl : lookupA (actKey r0) snap with
      | some prev =>
        have hl' : lookupA k snap = some prev := by rw [← hk0]; exact hl
        rw [dwGo_cons_some hl]
        rw [List.filter_cons_of_pos (p := dwFilt k D)
          (by rw [dwFilt_mk_qty]; exact rowFilt_true hk0 (Nat.le_of_eq hD))]
        have hz := sum_filter_false (g := fun pb : ActRow × Bool => pb.1.qty.get s) hrest
        constructor
        · simp only [List.map_cons, List.sum_cons, hz, add_zero, hl', Option.getD_some]
          have hc := clampIf_get_le (subQ r0.qty prev) s
          rw [subQ_get] at hc
          simpa using hc
        · intro hnc
          have hflag : anyNegQ (subQ r0.qty prev) = false := by
            apply hnc ({ r0 with qty := clampIf (subQ r0.qty prev) }, anyNegQ (subQ r0.qty prev))
            · exact List.mem_cons_self _ _
            · rw [actKey_qty]
              exact hk0
            · simpa using Nat.le_of_eq hD
          simp only [List.map_cons, List.sum_cons, hz, add_zero, hl', Option.getD_some]
          rw [clampIf, hflag]
          simp [subQ_get]
      | none =>
        have hl' : lookupA k snap = none := by rw [← hk0]; exact hl
        rw [dwGo_cons_none hl]
        rw [List.filter_cons_of_pos (p := dwFilt k D)
          (by rw [dwFilt_pair]; exact rowFilt_true hk0 (Nat.le_of_eq hD))]
        have hz := sum_filter_false (g := fun pb : ActRow × Bool => pb.1.qty.get s) hrest
        constructor
        · simp [hz, hl', q0_get]
        · intro _
          simp [hz, hl', q0_get]
    · -- the row at date D lies in the tail
      by_cases hkr : actKey r = k
      · have hrD : r.date ≤ D := by
          rw [← hD]
          exact hhead r0 h0t
        have hsnap : lookupA k (updA (actKey r) r.qty snap) = some r.qty := by
          rw [lookupA_updA, if_pos hkr]
        have iht := ih (updA (actKey r) r.qty snap) r0 hpwt hndt h0t hk0 hD
        rw [hsnap] at iht
        simp only [Option.getD_some] at iht
        cases hl : lookupA (actKey r) snap with
        | some prev =>
          have hl' : lookupA k snap = some prev := by rw [← hkr]; exact hl
          rw [dwGo_cons_some hl]
          rw [List.filter_cons_of_pos (p := dwFilt k D)
            (by rw [dwFilt_mk_qty]; exact rowFilt_true hkr hrD)]
          rw [hl']
          simp only [List.map_cons, List.sum_cons, Option.getD_some]
          have hclamp := clampIf_get_le (subQ r.qty prev) s
          rw [subQ_get] at hclamp
          constructor
          · have h1 := iht.1
            omega
          · intro hnc
            have hflag : anyNegQ (subQ r.qty prev) = false := by
              apply hnc ({ r with qty := clampIf (subQ r.qty prev) }, anyNegQ (subQ r.qty prev))
              · exact List.mem_cons_self _ _
              · rw [actKey_qty]
                exact hkr
              · simpa using hrD
            have h2 := iht.2 (fun pb hpb => hnc pb (List.mem_cons_of_mem _ hpb))
            rw [clampIf, hflag]
            simp only [Bool.false_eq_true, if_false, subQ_get, h2]
            omega
        | none =>
          have hl' : lookupA k snap = none := by rw [← hkr]; exact hl
          rw [dwGo_cons_none hl]
          rw [List.filter_cons_of_pos (p := dwFilt k D)
            (by rw [dwFilt_pair]; exact rowFilt_true hkr hrD)]
          rw [hl']
          simp only [List.map_cons, List.sum_cons, Option.getD_none, q0_get]
          constructor
          · have h1 := iht.1
            omega
          · intro hnc
            have h2 := iht.2 (fun pb hpb => hnc pb (List.mem_cons_of_mem _ hpb))
            omega
      · have hsnap : lookupA k (updA (actKey r) r.qty snap) = lookupA k snap := by
          rw [lookupA_updA, if_neg hkr]
        have iht := ih (updA (actKey r) r.qty snap) r0 hpwt hndt h0t hk0 hD
        rw [hsnap] at iht
        cases hl : lookupA (actKey r) snap with
        | some prev =>
          rw [dwGo_cons_some hl]
          rw [List.filter_cons_of_neg (p := dwFilt k D)
            (by rw [dwFilt_mk_qty, rowFilt_false_key (by rw [actKey_qty] at *; exact hkr)]; simp)]
          exact ⟨iht.1, fun hnc => iht.2 (fun pb hpb => hnc pb
            (List.mem_cons_of_mem _ hpb))⟩
        | none =>
          rw [dwGo_cons_none hl]
          rw [List.filter_cons_of_neg (p := dwFilt k D)
            (by rw [dwFilt_pair, rowFilt_false_key hkr]; simp)]
          exact ⟨iht.1, fun hnc => iht.2 (fun pb hpb => hnc pb
            (List.mem_cons_of_mem _ hpb))⟩

theorem reconSum_eq_aux (rows : List ActRow) (k : String × String × String)
    (D : Nat) (s : Stage) :
    reconSum rows k D s =
      (((daywiseAux rows).filter (dwFilt k D)).map (fun pb => pb.1.qty.get s)).sum := by
  rw [reconSum, convert_cumulative_to_daywise_quantities_for_daily_prod,
    List.filter_map, List.map_map]
  rfl

/-- C2 (amended): for any input whose (key, date) pairs are distinct,
and any row `r0`, summing the emitted day-wise deltas of `r0`'s tracking
key over all dates up to and including `r0.date` reproduces the original
cumulative total at that date when no clamp occurred for the key at or
before it; when a clamp occurred the reconstructed sum is greater than
or equal to the original cumulative total. -/
theorem converter_reconstruction (rows : List ActRow) (r0 : ActRow)
    (hnd : (rows.map (fun r => (actKey r, r.date))).Nodup)
    (h0 : r0 ∈ rows) (s : Stage) :
    r0.qty.get s ≤ reconSum rows (actKey r0) r0.date s ∧
    (¬ clampedBy rows (actKey r0) r0.date →
      reconSum rows (actKey r0) r0.date s = r0.qty.get s) := by
  have htot : ∀ a b : ActRow,
      (decide (a.date ≤ b.date) : Bool) ∨ (decide (b.date ≤ a.date) : Bool) := by
    intro a b
    rcases Nat.le_total a.date b.date with h | h
    · exact Or.inl (by simpa using h)
    · exact Or.inr (by simpa using h)
  have htr : ∀ a b c : ActRow, (decide (a.date ≤ b.date) : Bool) →
      (decide (b.date ≤ c.date) : Bool) → (decide (a.date ≤ c.date) : Bool) := by
    intro a b c hab hbc
    simp only [decide_eq_true_eq] at hab hbc ⊢
    omega
  have hpw : (dateSortAct rows).Pairwise (fun a b : ActRow => a.date ≤ b.date) := by
    have h := sSort_sorted htot htr rows
    exact h.imp (fun hab => by simpa using hab)
  have hnds : ((dateSortAct rows).map (fun r => (actKey r, r.date))).Nodup := by
    have hperm :=
      (sSort_perm (fun a b : ActRow => decide (a.date ≤ b.date)) rows).map
        (fun r => (actKey r, r.date))
    exact hperm.nodup_iff.mpr hnd
  have h0s : r0 ∈ dateSortAct rows := mem_sSort.mpr h0
  have hmain := dwGo_reconstruct (actKey r0) r0.date s (dateSortAct rows) [] r0
    hpw hnds h0s rfl rfl
  rw [reconSum_eq_aux]
  constructor
  · have h1 := hmain.1
    simpa [lookupA, q0_get] using h1
  · intro hncl
    have hnc : ∀ pb ∈ dwGo [] (dateSortAct rows),
        actKey pb.1 = actKey r0 → pb.1.date ≤ r0.date → pb.2 = false := by
      intro pb hpb hkk hdd
      by_contra hb
      rw [Bool.not_eq_false] at hb
      exact hncl ⟨pb, hpb, hkk, hdd, hb⟩
    have h2 := hmain.2 hnc
    simpa [lookupA, q0_get] using h2

/-- C2 counterexample: a key reported cumulative 10 then 5 in cutting.
The converter clamps the second delta to 0, so the deltas reconstruct to
10 at the second date, strictly above the original cumulative total 5 —
refuting the claim that a clamped reconstruction is at most the original
cumulative total. -/
theorem converter_claim_counterexample :
    clampedBy
      [⟨"A", "P", "c", 1, ⟨10, 0, 0, 0, 0⟩⟩, ⟨"A", "P", "c", 2, ⟨5, 0, 0, 0, 0⟩⟩]
      (actKey ⟨"A", "P", "c", 2, ⟨5, 0, 0, 0, 0⟩⟩) 2 ∧
    ¬ (reconSum
        [⟨"A", "P", "c", 1, ⟨10, 0, 0, 0, 0⟩⟩, ⟨"A", "P", "c", 2, ⟨5, 0, 0, 0, 0⟩⟩]
        (actKey ⟨"A", "P", "c", 2, ⟨5, 0, 0, 0, 0⟩⟩) 2 Stage.cutting ≤
      (⟨"A", "P", "c", 2, ⟨5, 0, 0, 0, 0⟩⟩ : ActRow).qty.get Stage.cutting) := by
  constructor
  · refine ⟨(ActRow.mk "A" "P" "c" 2 ⟨0, 0, 0, 0, 0⟩, true), ?_, ?_, ?_, rfl⟩
    · simp [daywiseAux, dateSortAct, sSort, sIns, dwGo, lookupA, updA, actKey,
        subQ, StageQ.map2, anyNegQ, clampIf, StageQ.mapQ]
    · rfl
    · decide
  · simp [reconSum, convert_cumulative_to_daywise_quantities_for_daily_prod,
      daywiseAux, dateSortAct, sSort, sIns, dwGo, lookupA, updA, actKey,
      subQ, StageQ.map2, anyNegQ, clampIf, StageQ.mapQ, rowFilt, StageQ.get]

/-! ### Year repair: code versus claimed policy -/

theorem planDatesGo_eq_amended (l : List (Option PDate)) :
    ∀ lastY, planDatesGo lastY l = planDatesAmendedGo lastY l := by
  induction l with
  | nil => intro lastY; rfl
  | cons h t ih =>
    intro lastY
    cases h with
    | none => simp [planDatesGo, planDatesAmendedGo, ih]
    | some p =>
      by_cases hp : yearPlausible p.y
      · simp [planDatesGo, planDatesAmendedGo, hp, ih]
      · cases hy : lastY with
        | some ya =>
          cases hb : peekYearBelow t with
          | some yb =>
            by_cases heq : ya = yb
            · simp [planDatesGo, planDatesAmendedGo, hp, hb, repairDecision,
                Option.toList, heq, ih]
            · simp [planDatesGo, planDatesAmendedGo, hp, hb, repairDecision,
                Option.toList, heq, ih]
          | none =>
            simp [planDatesGo, planDatesAmendedGo, hp, hb, repairDecision,
              Option.toList, ih]
        | none =>
          cases hb : peekYearBelow t with
          | some yb =>
            simp [planDatesGo, planDatesAmendedGo, hp, hb, repairDecision,
              Option.toList, ih]
          | none =>
            simp [planDatesGo, planDatesAmendedGo, hp, hb, repairDecision,
              Option.toList, ih]

/-- C5 counterexample: with rows dated 16/Sep/0202 and 17/Sep/1999, the
claimed policy would adopt year 1999 from the parseable following row,
but the code treats a peeked year outside 2000..2100 as unavailable and
drops both rows. -/
theorem year_repair_claim_counterexample :
    get_row_wise_data_from_plan_dates
        [some ⟨202, 9, 16⟩, some ⟨1999, 9, 17⟩] ≠
      planDatesClaim [some ⟨202, 9, 16⟩, some ⟨1999, 9, 17⟩] := by
  decide

/-- C5 (amended): the year-repair policy as implemented — the next
row's year counts as available only when it parses to a year in
2000..2100; both neighbors agreeing adopt that year, exactly one
available neighbor is adopted, otherwise the row is dropped.  On rows
dated 16/Sep/0202, 17/Sep/2025, 18/Sep/2025 the first row's year is
repaired to 2025 from the following row. -/
theorem year_repair_amended (l : List (Option PDate)) :
    get_row_wise_data_from_plan_dates l = planDatesAmended l ∧
    get_row_wise_data_from_plan_dates
        [some ⟨202, 9, 16⟩, some ⟨2025, 9, 17⟩, some ⟨2025, 9, 18⟩] =
      [⟨2025, 9, 16⟩, ⟨2025, 9, 17⟩, ⟨2025, 9, 18⟩] := by
  constructor
  · exact planDatesGo_eq_amended l none
  · decide

/-! ### Quantity cells: blank handling -/

/-- C8 counterexample: a blank plan quantity cell stores 0 but emits no
diagnostic, contrary to the claim that plan ingestion reports blank
quantity cells. -/
theorem plan_blank_cell_counterexample :
    ¬ ((planQuantityCell Cell.blank).2 = true) := by
  decide

/-- C8 (amended): a blank quantity cell stores 0 with no diagnostic in
both plan ingestion and actual ingestion. -/
theorem blank_cell_amended :
    planQuantityCell Cell.blank = ((0 : Int), false) ∧
    process_quantity Cell.blank = ((0 : Int), false) := by
  constructor <;> rfl

/-! ### Row pruner -/

/-- C4: with the data-model invariant that quantities are non-negative,
a matched row survives `delete_empty_rows` exactly when it is an input
row and at least one of its ten quantity fields is non-zero. -/
theorem pruner_keeps_iff (l : List MRow)
    (h : ∀ r ∈ l, (∀ s, 0 ≤ r.planned.get s) ∧ (∀ s, 0 ≤ r.actual.get s)) :
    ∀ r, r ∈ delete_empty_rows l ↔
      (r ∈ l ∧ ∃ s, r.planned.get s ≠ 0 ∨ r.actual.get s ≠ 0) := by
  intro r
  rw [delete_empty_rows, List.mem_filter]
  simp only [Bool.not_eq_eq_eq_not, Bool.not_true, beq_eq_false_iff_ne, ne_eq]
  constructor
  · rintro ⟨hm, hne⟩
    refine ⟨hm, ?_⟩
    by_contra hall
    push_neg at hall
    have h1 := hall .cutting
    have h2 := hall .sewing
    have h3 := hall .washing
    have h4 := hall .finishing
    have h5 := hall .packing
    simp only [StageQ.get] at h1 h2 h3 h4 h5
    apply hne
    rw [rowTotal]
    omega
  · rintro ⟨hm, s, hs⟩
    refine ⟨hm, ?_⟩
    obtain ⟨hp, ha⟩ := h r hm
    have hp1 := hp .cutting
    have hp2 := hp .sewing
    have hp3 := hp .washing
    have hp4 := hp .finishing
    have hp5 := hp .packing
    have ha1 := ha .cutting
    have ha2 := ha .sewing
    have ha3 := ha .washing
    have ha4 := ha .finishing
    have ha5 := ha .packing
    simp only [StageQ.get] at hp1 hp2 hp3 hp4 hp5 ha1 ha2 ha3 ha4 ha5
    intro hzero
    rw [rowTotal] at hzero
    rcases hs with hs | hs <;> cases s <;> simp only [StageQ.get] at hs <;> omega

/-- Witness for C4 at a concrete input: a row with planned cutting 5 is
kept, and the all-zero row for the same key is dropped. -/
theorem pruner_keeps_iff_witness :
    (MRow.mk "A" "P" "c" 1 ⟨5, 0, 0, 0, 0⟩ ⟨0, 0, 0, 0, 0⟩) ∈
      delete_empty_rows
        [MRow.mk "A" "P" "c" 1 ⟨5, 0, 0, 0, 0⟩ ⟨0, 0, 0, 0, 0⟩,
          MRow.mk "A" "P" "c" 2 ⟨0, 0, 0, 0, 0⟩ ⟨0, 0, 0, 0, 0⟩] ∧
    ¬ ((MRow.mk "A" "P" "c" 2 ⟨0, 0, 0, 0, 0⟩ ⟨0, 0, 0, 0, 0⟩) ∈
      delete_empty_rows
        [MRow.mk "A" "P" "c" 1 ⟨5, 0, 0, 0, 0⟩ ⟨0, 0, 0, 0, 0⟩,
          MRow.mk "A" "P" "c" 2 ⟨0, 0, 0, 0, 0⟩ ⟨0, 0, 0, 0, 0⟩]) := by
  have h := pruner_keeps_iff
    [MRow.mk "A" "P" "c" 1 ⟨5, 0, 0, 0, 0⟩ ⟨0, 0, 0, 0, 0⟩,
      MRow.mk "A" "P" "c" 2 ⟨0, 0, 0, 0, 0⟩ ⟨0, 0, 0, 0, 0⟩] (by decide)
  constructor
  · exact (h _).mpr ⟨by decide, ⟨Stage.cutting, Or.inl (by decide)⟩⟩
  · intro hmem
    have := ((h _).mp hmem).2
    rcases this with ⟨s, hs | hs⟩ <;> cases s <;> revert hs <;> decide

/-! ### Nested combo dictionary lemmas -/

theorem or_ite_none {α : Type u} (c : Prop) [Decidable c] (a : α) (o : Option α) :
    (if c then some a else none).or o = if c then some a else o := by
  by_cases h : c <;> simp [h]

/-- A date lookup in the built nested dictionary returns the last input
row with that combo key and date. -/
theorem byCombo_lookup [DecidableEq κ] (key : ρ → κ) (date : ρ → Nat) :
    ∀ (rows : List ρ) (m : List (κ × List (Nat × ρ))) (k : κ) (d : Nat),
    lookupA d ((lookupA k (rows.foldl (comboStep key date) m)).getD []) =
      (lastMatch (fun r => decide (key r = k) && decide (date r = d)) rows).or
        (lookupA d ((lookupA k m).getD [])) := by
  intro rows
  induction rows with
  | nil =>
    intro m k d
    simp [lastMatch]
  | cons r t ih =>
    intro m k d
    rw [List.foldl_cons, ih]
    have hstep : lookupA d ((lookupA k (comboStep key date m r)).getD []) =
        if (decide (key r = k) && decide (date r = d)) = true then some r
        else lookupA d ((lookupA k m).getD []) := by
      rw [comboStep, lookupA_updA]
      by_cases hkey : key r = k
      · rw [if_pos hkey, hkey, Option.getD_some, lookupA_updA]
        by_cases hdate : date r = d
        · simp [hkey, hdate]
        · simp [hkey, hdate]
      · rw [if_neg hkey]
        simp [hkey]
    rw [hstep, lastMatch, Option.or_assoc, or_ite_none]

/-- A combo key is absent from the built dictionary exactly when no
input row carries it. -/
theorem byCombo_none [DecidableEq κ] (key : ρ → κ) (date : ρ → Nat) :
    ∀ (rows : List ρ) (m : List (κ × List (Nat × ρ))) (k : κ),
    lookupA k (rows.foldl (comboStep key date) m) = none ↔
      (lookupA k m = none ∧ ∀ r ∈ rows, key r ≠ k) := by
  intro rows
  induction rows with
  | nil =>
    intro m k
    simp
  | cons r t ih =>
    intro m k
    rw [List.foldl_cons, ih]
    rw [comboStep, lookupA_updA]
    by_cases hkey : key r = k
    · rw [if_pos hkey]
      simp [hkey]
    · rw [if_neg hkey]
      constructor
      · rintro ⟨h1, h2⟩
        exact ⟨h1, by
          intro x hx
          rcases List.mem_cons.mp hx with rfl | hx
          · exact hkey
          · exact h2 x hx⟩
      · rintro ⟨h1, h2⟩
        exact ⟨h1, fun x hx => h2 x (List.mem_cons_of_mem r hx)⟩

/-- The inner date dictionaries of the built dictionary are never
empty. -/
theorem byCombo_some_ne_nil [DecidableEq κ] (key : ρ → κ) (date : ρ → Nat) :
    ∀ (rows : List ρ) (m : List (κ × List (Nat × ρ))) (k : κ)
      (inner : List (Nat × ρ)),
    (∀ w, lookupA k m = some w → w ≠ []) →
    lookupA k (rows.foldl (comboStep key date) m) = some inner → inner ≠ [] := by
  intro rows
  induction rows with
  | nil =>
    intro m k inner hm hl
    exact hm inner hl
  | cons r t ih =>
    intro m k inner hm hl
    rw [List.foldl_cons] at hl
    refine ih (comboStep key date m r) k inner ?_ hl
    intro w hw
    rw [comboStep, lookupA_updA] at hw
    by_cases hkey : key r = k
    · rw [if_pos hkey] at hw
      cases hw
      exact updA_ne_nil _ _ _
    · rw [if_neg hkey] at hw
      exact hm w hw

theorem sSort_eq_nil_iff {le : α → α → Bool} {l : List α} :
    sSort le l = [] ↔ l = [] := by
  constructor
  · intro h
    have hp := sSort_perm le l
    rw [h] at hp
    exact (hp.symm).eq_nil
  · intro h
    rw [h]
    rfl

/-- C1: a (PO, colour) key appears among the matcher's output rows
exactly when some plan row for the requested style carries it; keys
occurring only in the actuals never appear, and actual rows with such
keys are excluded from the output entirely. -/
theorem matcher_key_sets (plan : List PlanRow) (actual : List ActRow)
    (style po colour : String) :
    (∃ m ∈ match_plan_with_actual plan actual style,
      m.po = po ∧ m.colour = colour) ↔
    (∃ p ∈ plan, p.style.trim.toUpper = style.trim.toUpper ∧
      p.po.trim = po ∧ p.colour.trim.toLower = colour) := by
  constructor
  · rintro ⟨m, hm, hpo, hco⟩
    rw [match_plan_with_actual, List.mem_flatMap] at hm
    obtain ⟨k, hk, hmk⟩ := hm
    rw [List.mem_map] at hmk
    obtain ⟨d, hd, rfl⟩ := hmk
    have hk1 : k.1 = po := hpo
    have hk2 : k.2 = colour := hco
    rw [mem_sSort] at hk
    have hsome : (lookupA k (planByCombo (planStyleFilter plan style))).isSome :=
      (lookupA_isSome_iff_mem_keys _ _).mpr hk
    have hnn : lookupA k (planByCombo (planStyleFilter plan style)) ≠ none := by
      intro hcontra
      rw [hcontra] at hsome
      simp at hsome
    have hex : ¬ (∀ r ∈ planStyleFilter plan style, planComboKey r ≠ k) := by
      intro hall
      exact hnn ((byCombo_none planComboKey (fun r => r.date)
        (planStyleFilter plan style) [] k).mpr ⟨rfl, hall⟩)
    push_neg at hex
    obtain ⟨r, hr, hkey⟩ := hex
    rw [planStyleFilter, List.mem_filter] at hr
    obtain ⟨hrp, hstyle⟩ := hr
    refine ⟨r, hrp, by simpa using hstyle, ?_, ?_⟩
    · have h1 := congrArg Prod.fst hkey
      simpa [planComboKey, hk1] using h1
    · have h2 := congrArg Prod.snd hkey
      simpa [planComboKey, hk2] using h2
  · rintro ⟨p, hp, hstyle, hpo, hco⟩
    have hpS : p ∈ planStyleFilter plan style := by
      rw [planStyleFilter, List.mem_filter]
      exact ⟨hp, by simpa using hstyle⟩
    have hkey : planComboKey p = (po, colour) := by
      simp [planComboKey, hpo, hco]
    have hnn : lookupA (po, colour)
        (planByCombo (planStyleFilter plan style)) ≠ none := by
      intro hcontra
      have hall := ((byCombo_none planComboKey (fun r => r.date)
        (planStyleFilter plan style) [] (po, colour)).mp hcontra).2
      exact hall p hpS hkey
    cases hsome : lookupA (po, colour) (planByCombo (planStyleFilter plan style)) with
    | none => exact absurd hsome hnn
    | some inner =>
      have hne : inner ≠ [] :=
        byCombo_some_ne_nil planComboKey (fun r => r.date)
          (planStyleFilter plan style) [] (po, colour) inner
          (by intro w hw; simp [lookupA] at hw) hsome
      have hdne : comboDates plan actual style (po, colour) ≠ [] := by
        rw [comboDates, hsome]
        intro hcontra
        rw [sSort_eq_nil_iff, List.dedup_eq_nil, List.append_eq_nil] at hcontra
        have : inner = [] := by
          have h1 := hcontra.1
          rwa [Option.getD_some, List.map_eq_nil_iff] at h1
        exact hne this
      obtain ⟨d, hdmem⟩ := List.exists_mem_of_ne_nil _ hdne
      refine ⟨matchedRowFor plan actual style (po, colour) d, ?_, rfl, rfl⟩
      rw [match_plan_with_actual, List.mem_flatMap]
      refine ⟨(po, colour), ?_, List.mem_map_of_mem _ hdmem⟩
      rw [mem_sSort, ← lookupA_isSome_iff_mem_keys, hsome]
      rfl

/-- C9: every output row of the matcher draws its planned quantities
from the LAST plan row (in input order) of the requested style sharing
its (PO, colour) key and date, and its actual quantities from the LAST
such actual row; earlier duplicate rows are discarded, not summed
(quantities are zero-filled when no such row exists). -/
theorem matcher_last_row_wins (plan : List PlanRow) (actual : List ActRow)
    (style : String) :
    ∀ m ∈ match_plan_with_actual plan actual style,
      m.planned = ((lastMatch (fun r => decide (planComboKey r = (m.po, m.colour)) &&
          decide (r.date = m.date)) (planStyleFilter plan style)).map
        (fun p => p.planned)).getD q0 ∧
      m.actual = ((lastMatch (fun r => decide (actComboKey r = (m.po, m.colour)) &&
          decide (r.date = m.date)) (actStyleFilter actual style)).map
        (fun a => a.qty)).getD q0 := by
  intro m hm
  rw [match_plan_with_actual, List.mem_flatMap] at hm
  obtain ⟨k, hk, hmk⟩ := hm
  rw [List.mem_map] at hmk
  obtain ⟨d, hd, rfl⟩ := hmk
  have heta : ((matchedRowFor plan actual style k d).po,
      (matchedRowFor plan actual style k d).colour) = k := rfl
  have hdt : (matchedRowFor plan actual style k d).date = d := rfl
  rw [heta, hdt]
  constructor
  · have hpb : lookupA d ((lookupA k (planByCombo (planStyleFilter plan style))).getD []) =
        lastMatch (fun r => decide (planComboKey r = k) && decide (r.date = d))
          (planStyleFilter plan style) := by
      have h1 := byCombo_lookup planComboKey (fun r => r.date)
        (planStyleFilter plan style) [] k d
      simpa [planByCombo, byCombo, lookupA] using h1
    have hplan : (matchedRowFor plan actual style k d).planned =
        match lookupA d ((lookupA k (planByCombo (planStyleFilter plan style))).getD []) with
        | some p => p.planned
        | none => q0 := rfl
    rw [hplan, hpb]
    cases lastMatch (fun r => decide (planComboKey r = k) && decide (r.date = d))
      (planStyleFilter plan style) <;> rfl
  · have hab : lookupA d ((lookupA k (actByCombo (actStyleFilter actual style))).getD []) =
        lastMatch (fun r => decide (actComboKey r = k) && decide (r.date = d))
          (actStyleFilter actual style) := by
      have h1 := byCombo_lookup actComboKey (fun r => r.date)
        (actStyleFilter actual style) [] k d
      simpa [actByCombo, byCombo, lookupA] using h1
    have hact : (matchedRowFor plan actual style k d).actual =
        match lookupA d ((lookupA k (actByCombo (actStyleFilter actual style))).getD []) with
        | some a => a.qty
        | none => q0 := rfl
    rw [hact, hab]
    cases lastMatch (fun r => decide (actComboKey r = k) && decide (r.date = d))
      (actStyleFilter actual style) <;> rfl

/-- Witness for C9: two plan rows with the same style, PO, colour and
date, planning 3 and then 7 cutting; the matched row carries 7, the
quantities of the later row. -/
theorem matcher_last_row_wins_witness :
    (matchedRowFor
        [PlanRow.mk "A" "P" "c" 1 ⟨3, 0, 0, 0, 0⟩,
          PlanRow.mk "A" "P" "c" 1 ⟨7, 0, 0, 0, 0⟩] [] "A"
        ("P".trim, "c".trim.toLower) 1) ∈
      match_plan_with_actual
        [PlanRow.mk "A" "P" "c" 1 ⟨3, 0, 0, 0, 0⟩,
          PlanRow.mk "A" "P" "c" 1 ⟨7, 0, 0, 0, 0⟩] [] "A" ∧
    (matchedRowFor
        [PlanRow.mk "A" "P" "c" 1 ⟨3, 0, 0, 0, 0⟩,
          PlanRow.mk "A" "P" "c" 1 ⟨7, 0, 0, 0, 0⟩] [] "A"
        ("P".trim, "c".trim.toLower) 1).planned = ⟨7, 0, 0, 0, 0⟩ := by
  have hmem : (matchedRowFor
      [PlanRow.mk "A" "P" "c" 1 ⟨3, 0, 0, 0, 0⟩,
        PlanRow.mk "A" "P" "c" 1 ⟨7, 0, 0, 0, 0⟩] [] "A"
      ("P".trim, "c".trim.toLower) 1) ∈
      match_plan_with_actual
        [PlanRow.mk "A" "P" "c" 1 ⟨3, 0, 0, 0, 0⟩,
          PlanRow.mk "A" "P" "c" 1 ⟨7, 0, 0, 0, 0⟩] [] "A" := by
    rw [match_plan_with_actual, List.mem_flatMap]
    refine ⟨("P".trim, "c".trim.toLower), ?_, ?_⟩
    · rw [mem_sSort, ← lookupA_isSome_iff_mem_keys]
      simp [planByCombo, byCombo, comboStep, planStyleFilter, lookupA, updA,
        planComboKey]
    · refine List.mem_map_of_mem _ ?_
      simp [comboDates, planByCombo, actByCombo, byCombo, comboStep,
        planStyleFilter, actStyleFilter, lookupA, updA, planComboKey,
        actComboKey, sSort, sIns, natLe]
  refine ⟨hmem, ?_⟩
  have h := (matcher_last_row_wins
    [PlanRow.mk "A" "P" "c" 1 ⟨3, 0, 0, 0, 0⟩,
      PlanRow.mk "A" "P" "c" 1 ⟨7, 0, 0, 0, 0⟩] [] "A" _ hmem).1
  rw [h]
  simp [planStyleFilter, lastMatch, planComboKey, matchedRowFor]

/-- Witness for C7: cumulatives 10, 5, 7 on three consecutive dates of
one key.  The second delta is clamped, yet the third delta is the exact
difference 7 - 5 against the second row's original cumulative. -/
theorem converter_snapshot_witness :
    convert_cumulative_to_daywise_quantities_for_daily_prod
        [ActRow.mk "A" "P" "c" 1 ⟨10, 0, 0, 0, 0⟩,
          ActRow.mk "A" "P" "c" 2 ⟨5, 0, 0, 0, 0⟩,
          ActRow.mk "A" "P" "c" 3 ⟨7, 0, 0, 0, 0⟩] =
      [ActRow.mk "A" "P" "c" 1 ⟨10, 0, 0, 0, 0⟩,
        { ActRow.mk "A" "P" "c" 2 ⟨5, 0, 0, 0, 0⟩ with
          qty := clampIf (subQ ⟨5, 0, 0, 0, 0⟩ ⟨10, 0, 0, 0, 0⟩) },
        { ActRow.mk "A" "P" "c" 3 ⟨7, 0, 0, 0, 0⟩ with
          qty := clampIf (subQ ⟨7, 0, 0, 0, 0⟩ ⟨5, 0, 0, 0, 0⟩) }] ∧
    clampIf (subQ (⟨7, 0, 0, 0, 0⟩ : StageQ) ⟨5, 0, 0, 0, 0⟩) =
      subQ (⟨7, 0, 0, 0, 0⟩ : StageQ) ⟨5, 0, 0, 0, 0⟩ := by
  have h := converter_snapshot_keeps_original_cumulative
    (ActRow.mk "A" "P" "c" 1 ⟨10, 0, 0, 0, 0⟩)
    (ActRow.mk "A" "P" "c" 2 ⟨5, 0, 0, 0, 0⟩)
    (ActRow.mk "A" "P" "c" 3 ⟨7, 0, 0, 0, 0⟩)
    rfl rfl (by decide) (by decide)
  exact ⟨h.1, h.2 (by decide)⟩

/-- Witness for C10 at a concrete non-negative input. -/
theorem converter_output_nonneg_witness :
    (∀ r ∈ [ActRow.mk "A" "P" "c" 1 ⟨3, 0, 0, 0, 0⟩], ∀ s, 0 ≤ r.qty.get s) ∧
    (∀ r ∈ convert_cumulative_to_daywise_quantities_for_daily_prod
        [ActRow.mk "A" "P" "c" 1 ⟨3, 0, 0, 0, 0⟩], ∀ s, 0 ≤ r.qty.get s) := by
  refine ⟨by decide, converter_output_nonneg _ (by decide)⟩

/-- Witness for C2 (amended) at the concrete clamped input: the
reconstruction inequality holds at the second row of the 10-then-5
key. -/
theorem converter_reconstruction_witness :
    (([ActRow.mk "A" "P" "c" 1 ⟨10, 0, 0, 0, 0⟩,
        ActRow.mk "A" "P" "c" 2 ⟨5, 0, 0, 0, 0⟩].map
      (fun r => (actKey r, r.date))).Nodup) ∧
    (ActRow.mk "A" "P" "c" 2 ⟨5, 0, 0, 0, 0⟩ ∈
      [ActRow.mk "A" "P" "c" 1 ⟨10, 0, 0, 0, 0⟩,
        ActRow.mk "A" "P" "c" 2 ⟨5, 0, 0, 0, 0⟩]) ∧
    ((ActRow.mk "A" "P" "c" 2 ⟨5, 0, 0, 0, 0⟩).qty.get Stage.cutting ≤
      reconSum
        [ActRow.mk "A" "P" "c" 1 ⟨10, 0, 0, 0, 0⟩,
          ActRow.mk "A" "P" "c" 2 ⟨5, 0, 0, 0, 0⟩]
        (actKey (ActRow.mk "A" "P" "c" 2 ⟨5, 0, 0, 0, 0⟩))
        (ActRow.mk "A" "P" "c" 2 ⟨5, 0, 0, 0, 0⟩).date Stage.cutting) := by
  have hnd : (([ActRow.mk "A" "P" "c" 1 ⟨10, 0, 0, 0, 0⟩,
      ActRow.mk "A" "P" "c" 2 ⟨5, 0, 0, 0, 0⟩].map
        (fun r => (actKey r, r.date))).Nodup) := by
    simp [Prod.ext_iff]
  have hmem : ActRow.mk "A" "P" "c" 2 ⟨5, 0, 0, 0, 0⟩ ∈
      [ActRow.mk "A" "P" "c" 1 ⟨10, 0, 0, 0, 0⟩,
        ActRow.mk "A" "P" "c" 2 ⟨5, 0, 0, 0, 0⟩] := by
    simp
  exact ⟨hnd, hmem,
    (converter_reconstruction _ _ hnd hmem Stage.cutting).1⟩

/-! ### Cumulative aggregator lemmas -/

theorem groupsOf_sub (rows : List MRow) :
    ∀ g ∈ groupsOf rows, ∀ x ∈ g, x ∈ rows := by
  intro g hg x hx
  rw [groupsOf, List.mem_map] at hg
  obtain ⟨k, _, rfl⟩ := hg
  exact List.mem_of_mem_filter hx

theorem groupsOf_same (rows : List MRow) :
    ∀ g ∈ groupsOf rows, ∀ g' ∈ groupsOf rows, ∀ x ∈ g, ∀ y ∈ g',
    gKey x = gKey y → g = g' := by
  intro g hg g' hg' x hx y hy hxy
  rw [groupsOf, List.mem_map] at hg hg'
  obtain ⟨k, _, rfl⟩ := hg
  obtain ⟨k', _, rfl⟩ := hg'
  have hxk : gKey x = k := by
    have := (List.mem_filter.mp hx).2
    simpa using this
  have hyk : gKey y = k' := by
    have := (List.mem_filter.mp hy).2
    simpa using this
  have hkk : k = k' := by
    rw [← hxk, hxy, hyk]
  rw [hkk]

theorem foldl_addQ_nonneg (f : MRow → StageQ) :
    ∀ (l : List MRow) (acc : StageQ) (s : Stage),
    (∀ r ∈ l, 0 ≤ (f r).get s) → 0 ≤ acc.get s →
    0 ≤ (l.foldl (fun a r => addQ a (f r)) acc).get s := by
  intro l
  induction l with
  | nil =>
    intro acc s _ hacc
    simpa using hacc
  | cons r t ih =>
    intro acc s h hacc
    rw [List.foldl_cons]
    refine ih _ s (fun x hx => h x (List.mem_cons_of_mem _ hx)) ?_
    rw [addQ_get]
    have := h r (List.mem_cons_self r t)
    omega

theorem dateTotalP_nonneg (g : List MRow)
    (hg : ∀ r ∈ g, ∀ s, 0 ≤ r.planned.get s) (d : Nat) (s : Stage) :
    0 ≤ (dateTotalP g d).get s := by
  rw [dateTotalP]
  exact foldl_addQ_nonneg (fun r => r.planned) _ q0 s
    (fun r hr => hg r (List.mem_of_mem_filter hr) s) (by simp [q0_get])

theorem dateTotalA_nonneg (g : List MRow)
    (hg : ∀ r ∈ g, ∀ s, 0 ≤ r.actual.get s) (d : Nat) (s : Stage) :
    0 ≤ (dateTotalA g d).get s := by
  rw [dateTotalA]
  exact foldl_addQ_nonneg (fun r => r.actual) _ q0 s
    (fun r hr => hg r (List.mem_of_mem_filter hr) s) (by simp [q0_get])

/-- Every row the aggregator walk emits is assembled by `mkARow` from a
row of the walked group. -/
theorem aggGo_shape (g : List MRow) :
    ∀ (l : List MRow) (cur : Option (Nat × StageQ × StageQ)) (cP cA : StageQ),
    ∀ x ∈ aggGo g cur cP cA l, ∃ r ∈ l, ∃ cp ca, x = mkARow r cp ca := by
  intro l
  induction l with
  | nil =>
    intro cur cP cA x hx
    cases cur with
    | none => simp [aggGo] at hx
    | some p =>
      obtain ⟨d, cdcP, cdcA⟩ := p
      simp [aggGo] at hx
  | cons r t ih =>
    intro cur cP cA x hx
    cases cur with
    | none =>
      rw [aggGo] at hx
      rcases List.mem_cons.mp hx with rfl | hx
      · exact ⟨r, List.mem_cons_self r t, _, _, rfl⟩
      · obtain ⟨r', hr', cp, ca, heq⟩ := ih _ _ _ x hx
        exact ⟨r', List.mem_cons_of_mem _ hr', cp, ca, heq⟩
    | some p =>
      obtain ⟨d, cdcP, cdcA⟩ := p
      rw [aggGo] at hx
      by_cases hdate : r.date = d
      · rw [if_pos hdate] at hx
        rcases List.mem_cons.mp hx with rfl | hx
        · exact ⟨r, List.mem_cons_self r t, _, _, rfl⟩
        · obtain ⟨r', hr', cp, ca, heq⟩ := ih _ _ _ x hx
          exact ⟨r', List.mem_cons_of_mem _ hr', cp, ca, heq⟩
      · rw [if_neg hdate] at hx
        rcases List.mem_cons.mp hx with rfl | hx
        · exact ⟨r, List.mem_cons_self r t, _, _, rfl⟩
        · obtain ⟨r', hr', cp, ca, heq⟩ := ih _ _ _ x hx
          exact ⟨r', List.mem_cons_of_mem _ hr', cp, ca, heq⟩

/-- C3: in every output row of the aggregator, for every stage, the
cumulative-variance column equals the cumulative-actual column minus
the cumulative-planned column, exactly. -/
theorem aggregator_cumulative_variance (rows : List MRow) :
    ∀ x ∈ add_cumulative_columns_to_matched_dict rows, ∀ s,
      x.cumDiff.get s = x.cumA.get s - x.cumP.get s := by
  intro x hx s
  rw [add_cumulative_columns_to_matched_dict, mem_sSort, List.mem_flatMap] at hx
  obtain ⟨grp, _, hxg⟩ := hx
  rw [aggGroup] at hxg
  obtain ⟨r, _, cp, ca, rfl⟩ := aggGo_shape _ _ _ _ _ _ hxg
  simp [mkARow, subQ_get]

/-- Witness for C3: the single matched row (planned cutting 5, actual
cutting 3) yields one aggregated row whose cumulative variance columns
are checked by the theorem. -/
theorem aggregator_cumulative_variance_witness :
    (mkARow (MRow.mk "A" "P" "c" 1 ⟨5, 0, 0, 0, 0⟩ ⟨3, 0, 0, 0, 0⟩)
        (addQ q0 (dateTotalP [MRow.mk "A" "P" "c" 1 ⟨5, 0, 0, 0, 0⟩ ⟨3, 0, 0, 0, 0⟩] 1))
        (addQ q0 (dateTotalA [MRow.mk "A" "P" "c" 1 ⟨5, 0, 0, 0, 0⟩ ⟨3, 0, 0, 0, 0⟩] 1))) ∈
      add_cumulative_columns_to_matched_dict
        [MRow.mk "A" "P" "c" 1 ⟨5, 0, 0, 0, 0⟩ ⟨3, 0, 0, 0, 0⟩] ∧
    ∀ s, (mkARow (MRow.mk "A" "P" "c" 1 ⟨5, 0, 0, 0, 0⟩ ⟨3, 0, 0, 0, 0⟩)
        (addQ q0 (dateTotalP [MRow.mk "A" "P" "c" 1 ⟨5, 0, 0, 0, 0⟩ ⟨3, 0, 0, 0, 0⟩] 1))
        (addQ q0 (dateTotalA [MRow.mk "A" "P" "c" 1 ⟨5, 0, 0, 0, 0⟩ ⟨3, 0, 0, 0, 0⟩] 1))).cumDiff.get s =
      (mkARow (MRow.mk "A" "P" "c" 1 ⟨5, 0, 0, 0, 0⟩ ⟨3, 0, 0, 0, 0⟩)
        (addQ q0 (dateTotalP [MRow.mk "A" "P" "c" 1 ⟨5, 0, 0, 0, 0⟩ ⟨3, 0, 0, 0, 0⟩] 1))
        (addQ q0 (dateTotalA [MRow.mk "A" "P" "c" 1 ⟨5, 0, 0, 0, 0⟩ ⟨3, 0, 0, 0, 0⟩] 1))).cumA.get s -
      (mkARow (MRow.mk "A" "P" "c" 1 ⟨5, 0, 0, 0, 0⟩ ⟨3, 0, 0, 0, 0⟩)
        (addQ q0 (dateTotalP [MRow.mk "A" "P" "c" 1 ⟨5, 0, 0, 0, 0⟩ ⟨3, 0, 0, 0, 0⟩] 1))
        (addQ q0 (dateTotalA [MRow.mk "A" "P" "c" 1 ⟨5, 0, 0, 0, 0⟩ ⟨3, 0, 0, 0, 0⟩] 1))).cumP.get s := by
  have hmem : (mkARow (MRow.mk "A" "P" "c" 1 ⟨5, 0, 0, 0, 0⟩ ⟨3, 0, 0, 0, 0⟩)
      (addQ q0 (dateTotalP [MRow.mk "A" "P" "c" 1 ⟨5, 0, 0, 0, 0⟩ ⟨3, 0, 0, 0, 0⟩] 1))
      (addQ q0 (dateTotalA [MRow.mk "A" "P" "c" 1 ⟨5, 0, 0, 0, 0⟩ ⟨3, 0, 0, 0, 0⟩] 1))) ∈
      add_cumulative_columns_to_matched_dict
        [MRow.mk "A" "P" "c" 1 ⟨5, 0, 0, 0, 0⟩ ⟨3, 0, 0, 0, 0⟩] := by decide
  exact ⟨hmem, fun s => aggregator_cumulative_variance
    [MRow.mk "A" "P" "c" 1 ⟨5, 0, 0, 0, 0⟩ ⟨3, 0, 0, 0, 0⟩] _ hmem s⟩

/-- Lower bound along the aggregator walk: once the walk is inside date
`d` with snapshots `cdcP`, `cdcA`, every later emitted row carries
cumulative columns at least those snapshots, is dated no earlier than
`d`, and rows still dated `d` carry exactly those snapshots. -/
theorem aggGo_lb (g : List MRow)
    (hgP : ∀ d s, 0 ≤ (dateTotalP g d).get s)
    (hgA : ∀ d s, 0 ≤ (dateTotalA g d).get s) :
    ∀ (l : List MRow) (d : Nat) (cP cA cdcP cdcA : StageQ),
    l.Pairwise (fun a b => a.date ≤ b.date) →
    (∀ r ∈ l, d ≤ r.date) →
    cdcP = addQ cP (dateTotalP g d) →
    cdcA = addQ cA (dateTotalA g d) →
    ∀ b ∈ aggGo g (some (d, cdcP, cdcA)) cP cA l,
      (∀ s, cdcP.get s ≤ b.cumP.get s ∧ cdcA.get s ≤ b.cumA.get s) ∧
      d ≤ b.date ∧
      (b.date = d → b.cumP = cdcP ∧ b.cumA = cdcA) := by
  intro l
  induction l with
  | nil =>
    intro d cP cA cdcP cdcA _ _ _ _ b hb
    simp [aggGo] at hb
  | cons r t ih =>
    intro d cP cA cdcP cdcA hpw hdl hcp hca b hb
    obtain ⟨hhead, hpwt⟩ := List.pairwise_cons.mp hpw
    rw [aggGo] at hb
    by_cases hdate : r.date = d
    · rw [if_pos hdate] at hb
      rcases List.mem_cons.mp hb with rfl | hb
      · refine ⟨fun s => ⟨le_refl _, le_refl _⟩, ?_, fun _ => ⟨rfl, rfl⟩⟩
        show d ≤ r.date
        omega
      · exact ih d cP cA cdcP cdcA hpwt
          (fun x hx => hdl x (List.mem_cons_of_mem _ hx)) hcp hca b hb
    · rw [if_neg hdate] at hb
      have hd' : d ≤ r.date := hdl r (List.mem_cons_self r t)
      have hstepP : ∀ s, cdcP.get s ≤
          (addQ (addQ cP (dateTotalP g d)) (dateTotalP g r.date)).get s := by
        intro s
        rw [hcp, addQ_get, addQ_get, addQ_get]
        have := hgP r.date s
        omega
      have hstepA : ∀ s, cdcA.get s ≤
          (addQ (addQ cA (dateTotalA g d)) (dateTotalA g r.date)).get s := by
        intro s
        rw [hca, addQ_get, addQ_get, addQ_get]
        have := hgA r.date s
        omega
      rcases List.mem_cons.mp hb with rfl | hb
      · refine ⟨fun s => ⟨hstepP s, hstepA s⟩, hd', fun hbd => ?_⟩
        exfalso
        exact hdate hbd
      · have iht := ih r.date (addQ cP (dateTotalP g d)) (addQ cA (dateTotalA g d))
          (addQ (addQ cP (dateTotalP g d)) (dateTotalP g r.date))
          (addQ (addQ cA (dateTotalA g d)) (dateTotalA g r.date))
          hpwt hhead rfl rfl b hb
        refine ⟨fun s => ⟨le_trans (hstepP s) (iht.1 s).1,
          le_trans (hstepA s) (iht.1 s).2⟩, le_trans hd' iht.2.1, fun hbd => ?_⟩
        exfalso
        have h1 := iht.2.1
        rw [hbd] at h1
        exact hdate (le_antisymm h1 hd')

/-- Along the aggregator walk of a date-sorted group with non-negative
date totals, the emitted cumulative columns are monotone in date. -/
theorem aggGo_mono (g : List MRow)
    (hgP : ∀ d s, 0 ≤ (dateTotalP g d).get s)
    (hgA : ∀ d s, 0 ≤ (dateTotalA g d).get s) :
    ∀ (l : List MRow) (cur : Option (Nat × StageQ × StageQ)) (cP cA : StageQ),
    l.Pairwise (fun a b => a.date ≤ b.date) →
    (∀ d cdcP cdcA, cur = some (d, cdcP, cdcA) →
      (∀ r ∈ l, d ≤ r.date) ∧ cdcP = addQ cP (dateTotalP g d) ∧
        cdcA = addQ cA (dateTotalA g d)) →
    ∀ a ∈ aggGo g cur cP cA l, ∀ b ∈ aggGo g cur cP cA l,
      a.date ≤ b.date →
      ∀ s, a.cumP.get s ≤ b.cumP.get s ∧ a.cumA.get s ≤ b.cumA.get s := by
  intro l
  induction l with
  | nil =>
    intro cur cP cA _ _ a ha
    cases cur with
    | none => simp [aggGo] at ha
    | some p =>
      obtain ⟨d, cdcP, cdcA⟩ := p
      simp [aggGo] at ha
  | cons r t ih =>
    intro cur cP cA hpw hinv a ha b hb hab s
    obtain ⟨hhead, hpwt⟩ := List.pairwise_cons.mp hpw
    cases cur with
    | some p =>
      obtain ⟨d, cdcP, cdcA⟩ := p
      obtain ⟨hdl, hcp, hca⟩ := hinv d cdcP cdcA rfl
      rw [aggGo] at ha hb
      by_cases hdate : r.date = d
      · rw [if_pos hdate] at ha hb
        have hlb := aggGo_lb g hgP hgA t d cP cA cdcP cdcA hpwt
          (fun x hx => hdl x (List.mem_cons_of_mem _ hx)) hcp hca
        rcases List.mem_cons.mp ha with rfl | ha <;>
          rcases List.mem_cons.mp hb with rfl | hb
        · exact ⟨le_refl _, le_refl _⟩
        · exact ⟨((hlb b hb).1 s).1, ((hlb b hb).1 s).2⟩
        · have hba := hlb a ha
          have haD : a.date = d := by
            have h1 := hba.2.1
            have h2 : (mkARow r cdcP cdcA).date = d := hdate
            omega
          have := hba.2.2 haD
          rw [this.1, this.2]
          exact ⟨le_refl _, le_refl _⟩
        · exact ih (some (d, cdcP, cdcA)) cP cA hpwt
            (fun d' p' a' he => by
              cases he
              exact ⟨fun x hx => hdl x (List.mem_cons_of_mem _ hx), hcp, hca⟩)
            a ha b hb hab s
      · rw [if_neg hdate] at ha hb
        have hlb := aggGo_lb g hgP hgA t r.date
          (addQ cP (dateTotalP g d)) (addQ cA (dateTotalA g d))
          (addQ (addQ cP (dateTotalP g d)) (dateTotalP g r.date))
          (addQ (addQ cA (dateTotalA g d)) (dateTotalA g r.date))
          hpwt hhead rfl rfl
        rcases List.mem_cons.mp ha with rfl | ha <;>
          rcases List.mem_cons.mp hb with rfl | hb
        · exact ⟨le_refl _, le_refl _⟩
        · exact ⟨((hlb b hb).1 s).1, ((hlb b hb).1 s).2⟩
        · have hba := hlb a ha
          have h2 : a.date ≤ r.date := hab
          have haD : a.date = r.date := le_antisymm h2 hba.2.1
          have := hba.2.2 haD
          rw [this.1, this.2]
          exact ⟨le_refl _, le_refl _⟩
        · exact ih (some (r.date, _, _)) _ _ hpwt
            (fun d' p' a' he => by
              cases he
              exact ⟨hhead, rfl, rfl⟩)
            a ha b hb hab s
    | none =>
      rw [aggGo] at ha hb
      have hlb := aggGo_lb g hgP hgA t r.date cP cA
        (addQ cP (dateTotalP g r.date)) (addQ cA (dateTotalA g r.date))
        hpwt hhead rfl rfl
      rcases List.mem_cons.mp ha with rfl | ha <;>
        rcases List.mem_cons.mp hb with rfl | hb
      · exact ⟨le_refl _, le_refl _⟩
      · exact ⟨((hlb b hb).1 s).1, ((hlb b hb).1 s).2⟩
      · have hba := hlb a ha
        have h2 : a.date ≤ r.date := hab
        have haD : a.date = r.date := le_antisymm h2 hba.2.1
        have := hba.2.2 haD
        rw [this.1, this.2]
        exact ⟨le_refl _, le_refl _⟩
      · exact ih (some (r.date, _, _)) _ _ hpwt
          (fun d' p' a' he => by
            cases he
            exact ⟨hhead, rfl, rfl⟩)
          a ha b hb hab s

/-- C6: with the data-model invariant that matched-row quantities are
non-negative, any two output rows of the aggregator sharing a (style,
PO, colour) group have, in ascending date order, monotonically
non-decreasing per-stage cumulative planned and cumulative actual
columns. -/
theorem aggregator_cumulative_monotone (rows : List MRow)
    (h : ∀ r ∈ rows, ∀ s, 0 ≤ r.planned.get s ∧ 0 ≤ r.actual.get s) :
    ∀ a ∈ add_cumulative_columns_to_matched_dict rows,
    ∀ b ∈ add_cumulative_columns_to_matched_dict rows,
    a.style = b.style → a.po = b.po → a.colour = b.colour → a.date ≤ b.date →
    ∀ s, a.cumP.get s ≤ b.cumP.get s ∧ a.cumA.get s ≤ b.cumA.get s := by
  intro a ha b hb hsty hpo hcol hdate s
  rw [add_cumulative_columns_to_matched_dict, mem_sSort, List.mem_flatMap] at ha hb
  obtain ⟨ga, hga, hag⟩ := ha
  obtain ⟨gb, hgb, hbg⟩ := hb
  rw [aggGroup] at hag hbg
  obtain ⟨ra, hra, cpa, caa, haeq⟩ := aggGo_shape _ _ _ _ _ _ hag
  obtain ⟨rb, hrb, cpb, cab, hbeq⟩ := aggGo_shape _ _ _ _ _ _ hbg
  subst haeq
  subst hbeq
  have hs' : ra.style = rb.style := hsty
  have hp' : ra.po = rb.po := hpo
  have hc' : ra.colour = rb.colour := hcol
  have hkey : gKey ra = gKey rb := by
    simp [gKey, hs', hp', hc']
  have hra' : ra ∈ ga := mem_sSort.mp hra
  have hrb' : rb ∈ gb := mem_sSort.mp hrb
  have hgg : ga = gb := groupsOf_same rows ga hga gb hgb ra hra' rb hrb' hkey
  subst hgg
  have hsub : ∀ r ∈ sSort (fun a b => decide (a.date ≤ b.date)) ga, r ∈ rows :=
    fun r hr => groupsOf_sub rows ga hga r (mem_sSort.mp hr)
  have hgP : ∀ d s, 0 ≤ (dateTotalP (sSort (fun a b => decide (a.date ≤ b.date)) ga) d).get s :=
    fun d s => dateTotalP_nonneg _ (fun r hr s' => (h r (hsub r hr) s').1) d s
  have hgA : ∀ d s, 0 ≤ (dateTotalA (sSort (fun a b => decide (a.date ≤ b.date)) ga) d).get s :=
    fun d s => dateTotalA_nonneg _ (fun r hr s' => (h r (hsub r hr) s').2) d s
  have htot : ∀ x y : MRow,
      (decide (x.date ≤ y.date) : Bool) ∨ (decide (y.date ≤ x.date) : Bool) := by
    intro x y
    rcases Nat.le_total x.date y.date with hh | hh
    · exact Or.inl (by simpa using hh)
    · exact Or.inr (by simpa using hh)
  have htr : ∀ x y z : MRow, (decide (x.date ≤ y.date) : Bool) →
      (decide (y.date ≤ z.date) : Bool) → (decide (x.date ≤ z.date) : Bool) := by
    intro x y z hxy hyz
    simp only [decide_eq_true_eq] at hxy hyz ⊢
    omega
  have hpw : (sSort (fun a b => decide (a.date ≤ b.date)) ga).Pairwise
      (fun x y : MRow => x.date ≤ y.date) := by
    have hh := sSort_sorted htot htr ga
    exact hh.imp (fun hxy => by simpa using hxy)
  exact aggGo_mono _ hgP hgA _ none q0 q0 hpw
    (fun d p q he => Option.noConfusion he) _ hag _ hbg hdate s

/-- Witness for C6 at a concrete input, discharging the non-negativity
hypothesis and the two membership hypotheses. -/
theorem aggregator_cumulative_monotone_witness :
    (∀ r ∈ [MRow.mk "A" "P" "c" 1 ⟨5, 0, 0, 0, 0⟩ ⟨3, 0, 0, 0, 0⟩],
      ∀ s, 0 ≤ r.planned.get s ∧ 0 ≤ r.actual.get s) ∧
    ∀ s, (mkARow (MRow.mk "A" "P" "c" 1 ⟨5, 0, 0, 0, 0⟩ ⟨3, 0, 0, 0, 0⟩)
        (addQ q0 (dateTotalP [MRow.mk "A" "P" "c" 1 ⟨5, 0, 0, 0, 0⟩ ⟨3, 0, 0, 0, 0⟩] 1))
        (addQ q0 (dateTotalA [MRow.mk "A" "P" "c" 1 ⟨5, 0, 0, 0, 0⟩ ⟨3, 0, 0, 0, 0⟩] 1))).cumP.get s ≤
      (mkARow (MRow.mk "A" "P" "c" 1 ⟨5, 0, 0, 0, 0⟩ ⟨3, 0, 0, 0, 0⟩)
        (addQ q0 (dateTotalP [MRow.mk "A" "P" "c" 1 ⟨5, 0, 0, 0, 0⟩ ⟨3, 0, 0, 0, 0⟩] 1))
        (addQ q0 (dateTotalA [MRow.mk "A" "P" "c" 1 ⟨5, 0, 0, 0, 0⟩ ⟨3, 0, 0, 0, 0⟩] 1))).cumP.get s := by
  have hnn : ∀ r ∈ [MRow.mk "A" "P" "c" 1 ⟨5, 0, 0, 0, 0⟩ ⟨3, 0, 0, 0, 0⟩],
      ∀ s, 0 ≤ r.planned.get s ∧ 0 ≤ r.actual.get s := by decide
  have hmem : (mkARow (MRow.mk "A" "P" "c" 1 ⟨5, 0, 0, 0, 0⟩ ⟨3, 0, 0, 0, 0⟩)
      (addQ q0 (dateTotalP [MRow.mk "A" "P" "c" 1 ⟨5, 0, 0, 0, 0⟩ ⟨3, 0, 0, 0, 0⟩] 1))
      (addQ q0 (dateTotalA [MRow.mk "A" "P" "c" 1 ⟨5, 0, 0, 0, 0⟩ ⟨3, 0, 0, 0, 0⟩] 1))) ∈
      add_cumulative_columns_to_matched_dict
        [MRow.mk "A" "P" "c" 1 ⟨5, 0, 0, 0, 0⟩ ⟨3, 0, 0, 0, 0⟩] := by decide
  exact ⟨hnn, fun s => (aggregator_cumulative_monotone
    [MRow.mk "A" "P" "c" 1 ⟨5, 0, 0, 0, 0⟩ ⟨3, 0, 0, 0, 0⟩] hnn
    _ hmem _ hmem rfl rfl rfl (le_refl _) s).1⟩
